import Mathlib

/-!
Shallow embedding of `zoo_attack/random_gradient_estimator.py`
(class `RandomGradientEstimator`) over exact rational arithmetic.

Modelling conventions:
* a tensor is its flat element list (`List ℚ`); `view`/reshape is the
  identity on flat data, and a parameter's shape is represented by its
  element count alone;
* `torch.Generator` sampling is modelled by an abstract sampler
  `gen : ℤ → ℕ → ℚ` giving the value of the stream with a given manual
  seed (key) at a given position; `torch.randn` consumes consecutive
  positions, which captures exactly the determinism and sequencing of
  the real generator;
* `torch.norm` (an irrational square root in general) is modelled by an
  abstract `vnorm : List ℚ → ℚ`; it is only exercised when
  `normalize_perturbation` is set;
* a raised Python exception / failed `assert` is `Except.error` (or
  `none` where only one failure is possible);
* in-place mutation of the parameter list becomes explicit state
  passing of `List Param`.
-/

namespace ZeroGLA

/-- Source `RandomGradEstimateMethod`: `rge-central` or `rge-forward`. -/
inductive Method
  | central
  | forward
deriving DecidableEq

/-- A model parameter (`torch.nn.Parameter`): flat tensor data, the
mutable gradient slot (`.grad`, tensor-or-absent), and the
`requires_grad` flag used by the constructor's filter. -/
structure Param where
  data : List ℚ
  grad : Option (List ℚ) := none
  requiresGrad : Bool := true
deriving DecidableEq

/-- Source `p.numel()`: the element count of a parameter. -/
def Param.numel (p : Param) : ℕ := p.data.length

/-- Source `sum(p.numel() for p in ps)`. -/
def sumNumel (ps : List Param) : ℕ := (ps.map Param.numel).sum

/-- A `torch.Generator` state: its manual seed (key) and how many
samples have already been drawn from it. -/
structure Gen where
  key : ℤ
  pos : ℕ
deriving DecidableEq

/-- Source `torch.randn(n, generator=g)` under the abstract sampler `gen`:
the next `n` samples of the stream, together with the advanced
generator state. -/
def randn (gen : ℤ → ℕ → ℚ) (n : ℕ) (g : Gen) : List ℚ × Gen :=
  ((List.range n).map fun j => gen g.key (g.pos + j), ⟨g.key, g.pos + n⟩)

/-- Source `get_rng(seed, perturb_index)`: a fresh generator seeded with
`seed * (perturb_index + 17) + perturb_index`. -/
def getRng (seed : ℤ) (perturbIndex : ℕ) : Gen :=
  ⟨seed * ((perturbIndex : ℤ) + 17) + (perturbIndex : ℤ), 0⟩

/-- The estimator's configuration fields, as set by
`RandomGradientEstimator.__init__` (the mutable `parameters_list` is
threaded separately as explicit state). -/
structure Config where
  totalDims : ℕ
  mu : ℚ
  numPert : ℕ
  gradEstimateMethod : Method
  normalizePerturbation : Bool
  paramwisePerturb : Bool
  sgdOnlyNoOptim : Bool
deriving DecidableEq

/-- The `grad_estimate_method` constructor argument:
`RandomGradEstimateMethod | str`. -/
inductive MethodArg
  | enum (m : Method)
  | str (s : String)
deriving DecidableEq

/-- Source `RandomGradientEstimator.__init__`: filter the trainable
parameters, compute `total_dimensions`, resolve the method argument
(raising for an unknown string), and check the two configuration
asserts (`paramwise_perturb → not normalize_perturbation` and
`sgd_only_no_optim → paramwise_perturb`). -/
def initEstimator (parameters : List Param) (mu : ℚ) (numPert : ℕ)
    (gradEstimateMethod : MethodArg) (normalizePerturbation : Bool)
    (paramwisePerturb : Bool) (sgdOnlyNoOptim : Bool) :
    Except String (Config × List Param) :=
  let parametersList := parameters.filter (fun p => p.requiresGrad)
  let totalDims := sumNumel parametersList
  let method? : Except String Method :=
    match gradEstimateMethod with
    | .enum m => .ok m
    | .str s =>
        if s = "rge-central" then .ok .central
        else if s = "rge-forward" then .ok .forward
        else .error "Grad estimate method has to be rge-central or rge-forward"
  match method? with
  | .error e => .error e
  | .ok m =>
      if paramwisePerturb && normalizePerturbation then
        .error "assert normalize_perturbation is False"
      else if sgdOnlyNoOptim && !paramwisePerturb then
        .error "assert self.paramwise_perturb"
      else
        .ok (⟨totalDims, mu, numPert, m, normalizePerturbation,
              paramwisePerturb, sgdOnlyNoOptim⟩, parametersList)

/-- Source `generate_perturbation_norm(rng)`: draw `total_dimensions` samples;
if `normalize_perturbation`, divide the vector by its norm (`vnorm`). -/
def generatePerturbationNorm (gen : ℤ → ℕ → ℚ) (vnorm : List ℚ → ℚ)
    (cfg : Config) (rng : Gen) : List ℚ × Gen :=
  let pr := randn gen cfg.totalDims rng
  (if cfg.normalizePerturbation then pr.1.map (· / vnorm pr.1) else pr.1, pr.2)

/-- The Python slice `v[start : start + n]`. -/
def slice (v : List ℚ) (start n : ℕ) : List ℚ := (v.drop start).take n

/-- The loop body of `perturb_model`, threading the running offset
`start`: with a perturbation, `p.data = p.data + alpha * slice` (the
slice reshaped to `p`'s shape); with `perturb = None`, `p.mul_(alpha)`
(skipped when `alpha == 1`). -/
def perturbModelGo (perturb : Option (List ℚ)) (alpha : ℚ) :
    List Param → ℕ → List Param
  | [], _ => []
  | p :: rest, start =>
      (match perturb with
       | some v =>
           { p with data :=
               List.zipWith (fun x y => x + alpha * y) p.data (slice v start p.numel) }
       | none => if alpha = 1 then p else { p with data := p.data.map (· * alpha) })
        :: perturbModelGo perturb alpha rest (start + p.numel)

/-- Source `perturb_model(perturb, alpha)`. -/
def perturbModel (ps : List Param) (perturb : Option (List ℚ)) (alpha : ℚ) :
    List Param :=
  perturbModelGo perturb alpha ps 0

/-- The loop body of `put_grad`, threading the running offset. -/
def putGradGo (grad : List ℚ) : List Param → ℕ → List Param
  | [], _ => []
  | p :: rest, start =>
      { p with grad := some (slice grad start p.numel) }
        :: putGradGo grad rest (start + p.numel)

/-- Source `put_grad(grad)`: write consecutive parameter-sized slices of the
flat gradient into each parameter's gradient slot, in
`parameters_list` order. -/
def putGrad (grad : List ℚ) (ps : List Param) : List Param := putGradGo grad ps 0

/-- One update term of the `generate_then_put_grad` loop:
`generate_perturbation_norm(get_rng(seed, i)).mul_(dir_grad / num_pert)`
for the enumerated pair `ig = (i, dir_grad)`. -/
def injUpd (gen : ℤ → ℕ → ℚ) (vnorm : List ℚ → ℚ) (cfg : Config)
    (seed : ℤ) (numPert : ℕ) (ig : ℕ × ℚ) : List ℚ :=
  (generatePerturbationNorm gen vnorm cfg (getRng seed ig.1)).1.map
    (· * (ig.2 / (numPert : ℚ)))

/-- The accumulation loop of `generate_then_put_grad`: starting from
`update_grad = None`, for each `(i, dir_grad)` regenerate the direction
from `get_rng(seed, i)` and add `direction * (dir_grad / num_pert)`. -/
def injectFlatAcc (gen : ℤ → ℕ → ℚ) (vnorm : List ℚ → ℚ) (cfg : Config)
    (seed : ℤ) (dirGrads : List ℚ) : Option (List ℚ) :=
  dirGrads.enum.foldl
    (fun acc ig =>
      match acc with
      | none => some (injUpd gen vnorm cfg seed dirGrads.length ig)
      | some g =>
          some (List.zipWith (· + ·) g (injUpd gen vnorm cfg seed dirGrads.length ig)))
    none

/-- Source `generate_then_put_grad(seed, dir_grads)`: accumulate the scaled
regenerated directions, then `put_grad` the result; the
`assert update_grad is not None` (reached only for empty `dir_grads`)
is modelled as `none`. -/
def generateThenPutGrad (gen : ℤ → ℕ → ℚ) (vnorm : List ℚ → ℚ) (cfg : Config)
    (seed : ℤ) (dirGrads : List ℚ) (ps : List Param) : Option (List Param) :=
  match injectFlatAcc gen vnorm cfg seed dirGrads with
  | none => none
  | some g => some (putGrad g ps)

/-- The inner loop of `perturb_model_paramwise`: one parameter-shaped
draw per parameter, added in place with factor `alpha`, threading the
generator state through the draws. -/
def perturbParamwiseGo (gen : ℤ → ℕ → ℚ) (alpha : ℚ) :
    List Param → Gen → List Param
  | [], _ => []
  | p :: rest, rng =>
      let pr := randn gen p.numel rng
      { p with data := List.zipWith (fun x y => x + alpha * y) p.data pr.1 }
        :: perturbParamwiseGo gen alpha rest pr.2

/-- Source `perturb_model_paramwise(rng, alpha)`. -/
def perturbModelParamwise (gen : ℤ → ℕ → ℚ) (ps : List Param) (rng : Gen)
    (alpha : ℚ) : List Param :=
  perturbParamwiseGo gen alpha ps rng

/-- The inner loop of `generate_then_put_grad_paramwise` for one
direction: redraw each parameter-shaped perturbation and write
(`first`, i.e. `i == 0`) or accumulate (`i > 0`) the scaled draw into
the gradient slot.  `param.grad +=` on an absent gradient is modelled
by `getD []`; it is unreachable because the first direction writes
every slot. -/
def putGradParamwiseGo (gen : ℤ → ℕ → ℚ) (scale : ℚ) (first : Bool) :
    List Param → Gen → List Param
  | [], _ => []
  | p :: rest, rng =>
      let pr := randn gen p.numel rng
      let upd := pr.1.map (· * scale)
      { p with
          grad :=
            some (if first then upd else List.zipWith (· + ·) (p.grad.getD []) upd) }
        :: putGradParamwiseGo gen scale first rest pr.2

/-- Source `generate_then_put_grad_paramwise(seed, dir_grads)`. -/
def generateThenPutGradParamwise (gen : ℤ → ℕ → ℚ) (seed : ℤ)
    (dirGrads : List ℚ) (ps : List Param) : List Param :=
  dirGrads.enum.foldl
    (fun cur ig =>
      putGradParamwiseGo gen (ig.2 / (dirGrads.length : ℚ)) (ig.1 == 0) cur
        (getRng seed ig.1))
    ps

/-- Source `sgd_no_optim_update_model(perturbation_dir_grads, seed, lr)`: for
each direction, redraw the paramwise perturbation and
`param.data.add_(perturb, alpha = -lr * dir_grad / num_pert)`. -/
def sgdNoOptimUpdateModel (gen : ℤ → ℕ → ℚ) (dirGrads : List ℚ) (seed : ℤ)
    (lr : ℚ) (ps : List Param) : List Param :=
  dirGrads.enum.foldl
    (fun cur ig =>
      perturbParamwiseGo gen (-lr * ig.2 / (dirGrads.length : ℚ)) cur
        (getRng seed ig.1))
    ps

/-! ### Specification-side states and formulas for the estimation loops -/

/-- Direction `i` of one step: `generate_perturbation_norm(get_rng(seed, i))`. -/
def pbDir (gen : ℤ → ℕ → ℚ) (vnorm : List ℚ → ℚ) (cfg : Config) (seed : ℤ)
    (i : ℕ) : List ℚ :=
  (generatePerturbationNorm gen vnorm cfg (getRng seed i)).1

/-- The parameters perturbed by `+mu * direction_i` (whole-vector mode). -/
def plusState (gen : ℤ → ℕ → ℚ) (vnorm : List ℚ → ℚ) (cfg : Config) (seed : ℤ)
    (ps : List Param) (i : ℕ) : List Param :=
  perturbModel ps (some (pbDir gen vnorm cfg seed i)) cfg.mu

/-- The parameters perturbed by `-mu * direction_i` (whole-vector mode). -/
def minusState (gen : ℤ → ℕ → ℚ) (vnorm : List ℚ → ℚ) (cfg : Config) (seed : ℤ)
    (ps : List Param) (i : ℕ) : List Param :=
  perturbModel ps (some (pbDir gen vnorm cfg seed i)) (-cfg.mu)

/-- The directional gradient the specification describes for index `i`:
`(L_plus - L_minus) / (mu * denom)` with `denom = 2` and
`L_minus = loss(x - mu * direction_i)` in central mode, `denom = 1` and
`L_minus = loss(x)` (the unperturbed loss) in forward mode. -/
def dirGradSpec (gen : ℤ → ℕ → ℚ) (vnorm : List ℚ → ℚ) (cfg : Config)
    (loss : List Param → ℚ) (seed : ℤ) (ps : List Param) (i : ℕ) : ℚ :=
  match cfg.gradEstimateMethod with
  | .central =>
      (loss (plusState gen vnorm cfg seed ps i)
        - loss (minusState gen vnorm cfg seed ps i)) / (cfg.mu * 2)
  | .forward =>
      (loss (plusState gen vnorm cfg seed ps i) - loss ps) / (cfg.mu * 1)

/-- The parameter states at which the loss is evaluated inside the loop
iteration for index `i` (whole-vector mode). -/
def evalStatesSpec (gen : ℤ → ℕ → ℚ) (vnorm : List ℚ → ℚ) (cfg : Config)
    (seed : ℤ) (ps : List Param) (i : ℕ) : List (List Param) :=
  match cfg.gradEstimateMethod with
  | .central =>
      [plusState gen vnorm cfg seed ps i, minusState gen vnorm cfg seed ps i]
  | .forward => [plusState gen vnorm cfg seed ps i]

/-- The parameters perturbed by `+mu` times the paramwise direction `i`. -/
def plusStateP (gen : ℤ → ℕ → ℚ) (cfg : Config) (seed : ℤ) (ps : List Param)
    (i : ℕ) : List Param :=
  perturbModelParamwise gen ps (getRng seed i) cfg.mu

/-- The parameters perturbed by `-mu` times the paramwise direction `i`. -/
def minusStateP (gen : ℤ → ℕ → ℚ) (cfg : Config) (seed : ℤ) (ps : List Param)
    (i : ℕ) : List Param :=
  perturbModelParamwise gen ps (getRng seed i) (-cfg.mu)

/-- The specification's directional gradient for index `i`, paramwise mode. -/
def dirGradSpecP (gen : ℤ → ℕ → ℚ) (cfg : Config) (loss : List Param → ℚ)
    (seed : ℤ) (ps : List Param) (i : ℕ) : ℚ :=
  match cfg.gradEstimateMethod with
  | .central =>
      (loss (plusStateP gen cfg seed ps i)
        - loss (minusStateP gen cfg seed ps i)) / (cfg.mu * 2)
  | .forward =>
      (loss (plusStateP gen cfg seed ps i) - loss ps) / (cfg.mu * 1)

/-- The loss-evaluation states of iteration `i`, paramwise mode. -/
def evalStatesSpecP (gen : ℤ → ℕ → ℚ) (cfg : Config) (seed : ℤ)
    (ps : List Param) (i : ℕ) : List (List Param) :=
  match cfg.gradEstimateMethod with
  | .central => [plusStateP gen cfg seed ps i, minusStateP gen cfg seed ps i]
  | .forward => [plusStateP gen cfg seed ps i]

/-- Loop-carried state of `_zo_grad_estimate` and
`_zo_grad_estimate_paramwise`: the parameters, the current
`pert_minus_loss` variable, the accumulated full gradient (whole-vector
mode only), the directional gradients so far, and — as instrumentation
of the same control flow — the list of parameter states at which
`loss_fn` has been called, in call order. -/
structure ZoState where
  ps : List Param
  lminus : ℚ
  grad : Option (List ℚ)
  dirGrads : List ℚ
  evals : List (List Param)
deriving DecidableEq

/-- One iteration of the `_zo_grad_estimate` loop at perturbation index
`i`: draw the direction, apply `+mu` and take the plus loss; central
mode then applies `-2*mu`, takes the minus loss and restores with
`+mu`, while forward mode restores with `-mu` and keeps the carried
baseline; finally record `(plus - minus) / (mu * denominator)` and
accumulate `pb_norm * dir_grad` into the full gradient. -/
def zoIter (gen : ℤ → ℕ → ℚ) (vnorm : List ℚ → ℚ) (cfg : Config)
    (loss : List Param → ℚ) (seed : ℤ) (st : ZoState) (i : ℕ) : ZoState :=
  let denom : ℚ := if cfg.gradEstimateMethod = .central then 2 else 1
  let pbNorm := pbDir gen vnorm cfg seed i
  let ps1 := perturbModel st.ps (some pbNorm) cfg.mu
  let plusLoss := loss ps1
  match cfg.gradEstimateMethod with
  | .central =>
      let ps2 := perturbModel ps1 (some pbNorm) (-2 * cfg.mu)
      let minusLoss := loss ps2
      let ps3 := perturbModel ps2 (some pbNorm) cfg.mu
      let dg := (plusLoss - minusLoss) / (cfg.mu * denom)
      { ps := ps3, lminus := minusLoss,
        grad := some (match st.grad with
          | none => pbNorm.map (· * dg)
          | some g => List.zipWith (· + ·) g (pbNorm.map (· * dg))),
        dirGrads := st.dirGrads ++ [dg],
        evals := st.evals ++ [ps1, ps2] }
  | .forward =>
      let ps3 := perturbModel ps1 (some pbNorm) (-cfg.mu)
      let dg := (plusLoss - st.lminus) / (cfg.mu * denom)
      { ps := ps3, lminus := st.lminus,
        grad := some (match st.grad with
          | none => pbNorm.map (· * dg)
          | some g => List.zipWith (· + ·) g (pbNorm.map (· * dg))),
        dirGrads := st.dirGrads ++ [dg],
        evals := st.evals ++ [ps1] }

/-- The initial loop state of `_zo_grad_estimate` (and of the paramwise
variant): in forward mode, `pert_minus_loss` is the loss of the
unperturbed parameters, evaluated once before the loop; in central
mode the variable is not yet bound (it is assigned in every iteration
before use), modelled by the arbitrary initial value `0`. -/
def zoInit (loss : List Param → ℚ) (cfg : Config) (ps : List Param) : ZoState :=
  if cfg.gradEstimateMethod = .forward then
    { ps := ps, lminus := loss ps, grad := none, dirGrads := [], evals := [ps] }
  else
    { ps := ps, lminus := 0, grad := none, dirGrads := [], evals := [] }

/-- Source `_zo_grad_estimate(batch_inputs, labels, loss_fn, seed)`: run the
loop over `range(num_pert)`; `assert grad is not None` then
`grad.div_(num_pert)` (the assert fails, giving `none`, only for
`num_pert = 0`).  Returns the averaged full gradient, the directional
gradients, the final parameter state and the loss-evaluation trace. -/
def zoGradEstimate (gen : ℤ → ℕ → ℚ) (vnorm : List ℚ → ℚ) (cfg : Config)
    (loss : List Param → ℚ) (seed : ℤ) (ps : List Param) :
    Option (List ℚ) × List ℚ × List Param × List (List Param) :=
  let st := (List.range cfg.numPert).foldl (zoIter gen vnorm cfg loss seed)
    (zoInit loss cfg ps)
  (st.grad.map (fun g => g.map (· / (cfg.numPert : ℚ))), st.dirGrads, st.ps, st.evals)

/-- One iteration of the `_zo_grad_estimate_paramwise` loop at index
`i`: every perturbation application re-derives the generator from
`get_rng(seed, i)` and redraws the per-parameter tensors. -/
def zoIterParamwise (gen : ℤ → ℕ → ℚ) (cfg : Config)
    (loss : List Param → ℚ) (seed : ℤ) (st : ZoState) (i : ℕ) : ZoState :=
  let denom : ℚ := if cfg.gradEstimateMethod = .central then 2 else 1
  let ps1 := perturbModelParamwise gen st.ps (getRng seed i) cfg.mu
  let plusLoss := loss ps1
  match cfg.gradEstimateMethod with
  | .central =>
      let ps2 := perturbModelParamwise gen ps1 (getRng seed i) (-2 * cfg.mu)
      let minusLoss := loss ps2
      let ps3 := perturbModelParamwise gen ps2 (getRng seed i) cfg.mu
      let dg := (plusLoss - minusLoss) / (cfg.mu * denom)
      { ps := ps3, lminus := minusLoss, grad := none,
        dirGrads := st.dirGrads ++ [dg],
        evals := st.evals ++ [ps1, ps2] }
  | .forward =>
      let ps3 := perturbModelParamwise gen ps1 (getRng seed i) (-cfg.mu)
      let dg := (plusLoss - st.lminus) / (cfg.mu * denom)
      { ps := ps3, lminus := st.lminus, grad := none,
        dirGrads := st.dirGrads ++ [dg],
        evals := st.evals ++ [ps1] }

/-- Source `_zo_grad_estimate_paramwise(batch_inputs, labels, loss_fn, seed)`:
returns the directional gradients, the final parameter state and the
loss-evaluation trace. -/
def zoGradEstimateParamwise (gen : ℤ → ℕ → ℚ) (cfg : Config)
    (loss : List Param → ℚ) (seed : ℤ) (ps : List Param) :
    List ℚ × List Param × List (List Param) :=
  let st := (List.range cfg.numPert).foldl (zoIterParamwise gen cfg loss seed)
    (zoInit loss cfg ps)
  (st.dirGrads, st.ps, st.evals)

/-- Source `compute_grad(batch_inputs, labels, loss_fn, seed, is_put)`:
whole-vector mode estimates and, only if `is_put`, writes the full
gradient with `put_grad`; paramwise mode estimates and always injects
with `generate_then_put_grad_paramwise`.  Returns the directional
gradients and the updated parameters; `none` models the failed assert
(`num_pert = 0` in whole-vector mode). -/
def computeGrad (gen : ℤ → ℕ → ℚ) (vnorm : List ℚ → ℚ) (cfg : Config)
    (loss : List Param → ℚ) (seed : ℤ) (isPut : Bool) (ps : List Param) :
    Option (List ℚ × List Param) :=
  if !cfg.paramwisePerturb then
    match zoGradEstimate gen vnorm cfg loss seed ps with
    | (none, _, _, _) => none
    | (some g, dirGrads, ps1, _) =>
        some (dirGrads, if isPut then putGrad g ps1 else ps1)
  else
    let r := zoGradEstimateParamwise gen cfg loss seed ps
    some (r.1, generateThenPutGradParamwise gen seed r.1 r.2.1)

/-- An external `torch.optim.Optimizer`: whether it is an instance of
`torch.optim.SGD`, its `defaults` (`lr`, `momentum`, `weight_decay`),
and its opaque `step()` acting on the parameters through their
gradient slots. -/
structure Optimizer where
  isSGD : Bool
  lr : ℚ
  momentum : ℚ
  weightDecay : ℚ
  step : List Param → List Param

/-- Modelled from the spec: one plain zero-momentum `torch.optim.SGD`
step (the external optimizer's update rule, outside this repository) —
each parameter with a populated gradient slot becomes
`p - lr * (g + wd * p) = p * (1 - lr * wd) - lr * g`; parameters with
an empty slot are untouched. -/
def sgdStep (lr wd : ℚ) (ps : List Param) : List Param :=
  ps.map fun p =>
    match p.grad with
    | none => p
    | some g =>
        { p with data := List.zipWith (fun x gx => x - lr * (gx + wd * x)) p.data g }

/-- The gradient-injection step shared by `update_model_given_seed_and_grad`
and `revert_model_given_seed_and_grad`: paramwise or whole-vector
according to the configuration (the whole-vector path can fail on an
empty directional-gradient list). -/
def injectGrad (gen : ℤ → ℕ → ℚ) (vnorm : List ℚ → ℚ) (cfg : Config)
    (seed : ℤ) (dirGrads : List ℚ) (ps : List Param) :
    Except String (List Param) :=
  if cfg.paramwisePerturb then
    .ok (generateThenPutGradParamwise gen seed dirGrads ps)
  else
    match generateThenPutGrad gen vnorm cfg seed dirGrads ps with
    | none => .error "assert update_grad is not None"
    | some q => .ok q

/-- Source `update_model_given_seed_and_grad(optimizer, iteration_seeds,
iteration_grad_scalar)`: after the length assert, either the
`sgd_only_no_optim` path (read `lr` from the optimizer defaults and
apply `sgd_no_optim_update_model` per recorded step) or, per recorded
step, inject the gradient and delegate one `optimizer.step()`. -/
def updateModel (gen : ℤ → ℕ → ℚ) (vnorm : List ℚ → ℚ) (cfg : Config)
    (opt : Optimizer) (seeds : List ℤ) (gradScalars : List (List ℚ))
    (ps : List Param) : Except String (List Param) :=
  if seeds.length ≠ gradScalars.length then
    .error "assert len(iteration_seeds) == len(iteration_grad_scalar)"
  else if cfg.sgdOnlyNoOptim then
    if !cfg.paramwisePerturb then .error "assert self.paramwise_perturb"
    else
      .ok ((seeds.zip gradScalars).foldl
        (fun cur sg => sgdNoOptimUpdateModel gen sg.2 sg.1 opt.lr cur) ps)
  else
    (seeds.zip gradScalars).foldl
      (fun cur sg => do
        let cur ← cur
        let injected ← injectGrad gen vnorm cfg sg.1 sg.2 cur
        pure (opt.step injected))
      (.ok ps)

/-- The per-parameter arithmetic of the revert loop:
`assert param.grad is not None`, `param.add_(param.grad, alpha=lr)`
(gradient ascent instead of descent), then, if `weight_decay > 0`,
`param.mul_(1 / (1 - lr * weight_decay))`. -/
def revertParam (lr wd : ℚ) (p : Param) : Except String Param :=
  match p.grad with
  | none => .error "assert param.grad is not None"
  | some g =>
      let d := List.zipWith (fun x gx => x + lr * gx) p.data g
      .ok { p with data := if wd > 0 then d.map (· * (1 / (1 - lr * wd))) else d }

/-- Source `revert_model_given_seed_and_grad(optimizer, iteration_seeds,
iteration_grad_scalar)`: assert `sgd_only_no_optim` is off and the
history lengths match; raise "Revert only supports SGD without
momentum" unless the optimizer is `SGD` with zero momentum; then, per
recorded step, re-inject the gradient and apply the inverse update to
every parameter. -/
def revertModel (gen : ℤ → ℕ → ℚ) (vnorm : List ℚ → ℚ) (cfg : Config)
    (opt : Optimizer) (seeds : List ℤ) (gradScalars : List (List ℚ))
    (ps : List Param) : Except String (List Param) :=
  if cfg.sgdOnlyNoOptim then
    .error "assert not self.sgd_only_no_optim"
  else if seeds.length ≠ gradScalars.length then
    .error "assert len(iteration_seeds) == len(iteration_grad_scalar)"
  else if ¬(opt.isSGD = true ∧ opt.momentum = 0) then
    .error "Revert only supports SGD without momentum"
  else
    (seeds.zip gradScalars).foldl
      (fun cur sg => do
        let cur ← cur
        let injected ← injectGrad gen vnorm cfg sg.1 sg.2 cur
        injected.mapM (revertParam opt.lr opt.weightDecay))
      (.ok ps)

/-- The flat gradient described by the specification:
elementwise over positions `t`, the sum over the enumerated directions
of `direction_i[t] * dir_grads[i] / num_pert`. -/
def injFlatSpec (gen : ℤ → ℕ → ℚ) (vnorm : List ℚ → ℚ) (cfg : Config)
    (seed : ℤ) (dirGrads : List ℚ) : List ℚ :=
  (List.range cfg.totalDims).map fun t =>
    (dirGrads.enum.map fun ig =>
      ((generatePerturbationNorm gen vnorm cfg (getRng seed ig.1)).1.getD t 0)
        * (ig.2 / (dirGrads.length : ℚ))).sum


/-- The full flat draw of `D` samples from the stream with key `k`. -/
def flatDraw (gen : ℤ → ℕ → ℚ) (k : ℤ) (D : ℕ) : List ℚ :=
  (randn gen D ⟨k, 0⟩).1


/-! ### Basic list and draw lemmas -/

theorem length_randn (gen : ℤ → ℕ → ℚ) (n : ℕ) (g : Gen) :
    (randn gen n g).1.length = n := by
  simp [randn]

theorem length_slice (v : List ℚ) (s n : ℕ) :
    (slice v s n).length = min n (v.length - s) := by
  simp [slice]

theorem length_slice_of_le (v : List ℚ) (s n : ℕ) (h : s + n ≤ v.length) :
    (slice v s n).length = n := by
  rw [length_slice]
  omega

theorem sumNumel_cons (p : Param) (ps : List Param) :
    sumNumel (p :: ps) = p.numel + sumNumel ps := by
  simp [sumNumel]

theorem zipWith_same_comp (f g h : ℚ → ℚ → ℚ)
    (H : ∀ x y, g (f x y) y = h x y) :
    ∀ (l s : List ℚ), List.zipWith g (List.zipWith f l s) s = List.zipWith h l s := by
  intro l
  induction l with
  | nil => intro s; simp
  | cons x xs ih =>
      intro s
      cases s with
      | nil => simp
      | cons y ys => simp [H, ih]

theorem zipWith_left_id (f : ℚ → ℚ → ℚ) (H : ∀ x y, f x y = x) :
    ∀ (l s : List ℚ), l.length ≤ s.length → List.zipWith f l s = l := by
  intro l
  induction l with
  | nil => intro s _; simp
  | cons x xs ih =>
      intro s hs
      cases s with
      | nil => simp at hs
      | cons y ys =>
          simp only [List.zipWith, H, List.cons.injEq, true_and]
          exact ih ys (by simpa using hs)

/-! ### `perturb_model` algebra (whole-vector) -/

theorem perturbGo_map_grad (perturb : Option (List ℚ)) (alpha : ℚ) :
    ∀ (ps : List Param) (start : ℕ),
      (perturbModelGo perturb alpha ps start).map Param.grad = ps.map Param.grad := by
  intro ps
  induction ps with
  | nil => intro start; simp [perturbModelGo]
  | cons p rest ih =>
      intro start
      cases perturb with
      | some v => simp [perturbModelGo, ih]
      | none =>
          by_cases h : alpha = 1
          · subst h; simp [perturbModelGo, ih]
          · simp [perturbModelGo, h, ih]

theorem perturbGo_map_numel (v : List ℚ) (alpha : ℚ) :
    ∀ (ps : List Param) (start : ℕ), start + sumNumel ps ≤ v.length →
      (perturbModelGo (some v) alpha ps start).map Param.numel = ps.map Param.numel := by
  intro ps
  induction ps with
  | nil => intro start _; simp [perturbModelGo]
  | cons p rest ih =>
      intro start h
      obtain ⟨d, g, r⟩ := p
      rw [sumNumel_cons] at h
      simp only [Param.numel] at h
      have hn : start + d.length ≤ v.length := by omega
      have hlen : (List.zipWith (fun x y => x + alpha * y) d
          (slice v start d.length)).length = d.length := by
        rw [List.length_zipWith, length_slice_of_le v start d.length hn]
        exact Nat.min_self _
      simp only [perturbModelGo, Param.numel, List.map_cons, List.cons.injEq, hlen]
      exact ⟨trivial, ih (start + d.length) (by omega)⟩

theorem sumNumel_perturbGo (v : List ℚ) (alpha : ℚ) (ps : List Param) (start : ℕ)
    (h : start + sumNumel ps ≤ v.length) :
    sumNumel (perturbModelGo (some v) alpha ps start) = sumNumel ps := by
  unfold sumNumel
  rw [perturbGo_map_numel v alpha ps start h]

theorem perturbGo_comp (v : List ℚ) (a b : ℚ) :
    ∀ (ps : List Param) (start : ℕ), start + sumNumel ps ≤ v.length →
      perturbModelGo (some v) b (perturbModelGo (some v) a ps start) start
        = perturbModelGo (some v) (a + b) ps start := by
  intro ps
  induction ps with
  | nil => intro start _; simp [perturbModelGo]
  | cons p rest ih =>
      intro start h
      obtain ⟨d, g, r⟩ := p
      rw [sumNumel_cons] at h
      simp only [Param.numel] at h
      have hn : start + d.length ≤ v.length := by omega
      have hlen : (List.zipWith (fun x y => x + a * y) d
          (slice v start d.length)).length = d.length := by
        rw [List.length_zipWith, length_slice_of_le v start d.length hn]
        exact Nat.min_self _
      simp only [perturbModelGo, Param.numel, hlen, List.cons.injEq, Param.mk.injEq,
        and_true, true_and]
      refine ⟨?_, ih (start + d.length) (by omega)⟩
      exact zipWith_same_comp (fun x y => x + a * y) (fun x y => x + b * y)
        (fun x y => x + (a + b) * y) (by intro x y; ring) d (slice v start d.length)

theorem perturbGo_zero (v : List ℚ) :
    ∀ (ps : List Param) (start : ℕ), start + sumNumel ps ≤ v.length →
      perturbModelGo (some v) 0 ps start = ps := by
  intro ps
  induction ps with
  | nil => intro start _; simp [perturbModelGo]
  | cons p rest ih =>
      intro start h
      obtain ⟨d, g, r⟩ := p
      rw [sumNumel_cons] at h
      simp only [Param.numel] at h
      have hn : start + d.length ≤ v.length := by omega
      have hz : List.zipWith (fun x y => x + (0:ℚ) * y) d (slice v start d.length)
          = d := by
        apply zipWith_left_id _ (by intro x y; ring)
        rw [length_slice_of_le v start d.length hn]
      simp only [perturbModelGo, Param.numel, hz, List.cons.injEq]
      exact ⟨trivial, ih (start + d.length) (by omega)⟩

theorem perturbModel_comp (ps : List Param) (v : List ℚ) (a b : ℚ)
    (h : sumNumel ps ≤ v.length) :
    perturbModel (perturbModel ps (some v) a) (some v) b
      = perturbModel ps (some v) (a + b) := by
  unfold perturbModel
  exact perturbGo_comp v a b ps 0 (by omega)

theorem perturbModel_zero (ps : List Param) (v : List ℚ)
    (h : sumNumel ps ≤ v.length) :
    perturbModel ps (some v) 0 = ps := by
  unfold perturbModel
  exact perturbGo_zero v ps 0 (by omega)

theorem sumNumel_perturbModel (ps : List Param) (v : List ℚ) (alpha : ℚ)
    (h : sumNumel ps ≤ v.length) :
    sumNumel (perturbModel ps (some v) alpha) = sumNumel ps := by
  unfold perturbModel
  exact sumNumel_perturbGo v alpha ps 0 (by omega)

/-! ### `perturb_model_paramwise` algebra -/

theorem perturbPGo_map_numel (gen : ℤ → ℕ → ℚ) (alpha : ℚ) :
    ∀ (ps : List Param) (rng : Gen),
      (perturbParamwiseGo gen alpha ps rng).map Param.numel = ps.map Param.numel := by
  intro ps
  induction ps with
  | nil => intro rng; simp [perturbParamwiseGo]
  | cons p rest ih =>
      intro rng
      obtain ⟨d, g, r⟩ := p
      have hlen : (List.zipWith (fun x y => x + alpha * y) d
          (randn gen d.length rng).1).length = d.length := by
        rw [List.length_zipWith, length_randn]
        exact Nat.min_self _
      simp only [perturbParamwiseGo, Param.numel, List.map_cons, List.cons.injEq, hlen]
      exact ⟨trivial, ih _⟩

theorem perturbPGo_map_grad (gen : ℤ → ℕ → ℚ) (alpha : ℚ) :
    ∀ (ps : List Param) (rng : Gen),
      (perturbParamwiseGo gen alpha ps rng).map Param.grad = ps.map Param.grad := by
  intro ps
  induction ps with
  | nil => intro rng; simp [perturbParamwiseGo]
  | cons p rest ih =>
      intro rng
      simp only [perturbParamwiseGo, List.map_cons, List.cons.injEq]
      exact ⟨trivial, ih _⟩

theorem perturbPGo_comp (gen : ℤ → ℕ → ℚ) (a b : ℚ) :
    ∀ (ps : List Param) (rng : Gen),
      perturbParamwiseGo gen b (perturbParamwiseGo gen a ps rng) rng
        = perturbParamwiseGo gen (a + b) ps rng := by
  intro ps
  induction ps with
  | nil => intro rng; simp [perturbParamwiseGo]
  | cons p rest ih =>
      intro rng
      obtain ⟨d, g, r⟩ := p
      have hlen : (List.zipWith (fun x y => x + a * y) d
          (randn gen d.length rng).1).length = d.length := by
        rw [List.length_zipWith, length_randn]
        exact Nat.min_self _
      simp only [perturbParamwiseGo, Param.numel, hlen, List.cons.injEq, Param.mk.injEq,
        and_true, true_and]
      refine ⟨?_, ih _⟩
      exact zipWith_same_comp (fun x y => x + a * y) (fun x y => x + b * y)
        (fun x y => x + (a + b) * y) (by intro x y; ring) d (randn gen d.length rng).1

theorem perturbPGo_zero (gen : ℤ → ℕ → ℚ) :
    ∀ (ps : List Param) (rng : Gen),
      perturbParamwiseGo gen 0 ps rng = ps := by
  intro ps
  induction ps with
  | nil => intro rng; simp [perturbParamwiseGo]
  | cons p rest ih =>
      intro rng
      obtain ⟨d, g, r⟩ := p
      have hz : List.zipWith (fun x y => x + (0:ℚ) * y) d
          (randn gen d.length rng).1 = d := by
        apply zipWith_left_id _ (by intro x y; ring)
        rw [length_randn]
      simp only [perturbParamwiseGo, Param.numel, hz, List.cons.injEq]
      exact ⟨trivial, ih _⟩

theorem perturbModelParamwise_comp (gen : ℤ → ℕ → ℚ) (ps : List Param)
    (rng : Gen) (a b : ℚ) :
    perturbModelParamwise gen (perturbModelParamwise gen ps rng a) rng b
      = perturbModelParamwise gen ps rng (a + b) := by
  unfold perturbModelParamwise
  exact perturbPGo_comp gen a b ps rng

theorem perturbModelParamwise_zero (gen : ℤ → ℕ → ℚ) (ps : List Param) (rng : Gen) :
    perturbModelParamwise gen ps rng 0 = ps := by
  unfold perturbModelParamwise
  exact perturbPGo_zero gen ps rng

/-! ### `put_grad` characterization -/

theorem length_generatePerturbationNorm (gen : ℤ → ℕ → ℚ) (vnorm : List ℚ → ℚ)
    (cfg : Config) (rng : Gen) :
    (generatePerturbationNorm gen vnorm cfg rng).1.length = cfg.totalDims := by
  unfold generatePerturbationNorm
  by_cases h : cfg.normalizePerturbation <;> simp [h, length_randn]

theorem putGradGo_map_data (grad : List ℚ) :
    ∀ (ps : List Param) (start : ℕ),
      (putGradGo grad ps start).map Param.data = ps.map Param.data := by
  intro ps
  induction ps with
  | nil => intro start; simp [putGradGo]
  | cons p rest ih =>
      intro start
      simp only [putGradGo, List.map_cons, List.cons.injEq]
      exact ⟨trivial, ih _⟩

theorem putGradGo_map_numel (grad : List ℚ) (ps : List Param) (start : ℕ) :
    (putGradGo grad ps start).map Param.numel = ps.map Param.numel := by
  have h := putGradGo_map_data grad ps start
  have : ∀ (l m : List Param), l.map Param.data = m.map Param.data →
      l.map Param.numel = m.map Param.numel := by
    intro l m hm
    have : l.map Param.numel = (l.map Param.data).map List.length := by
      simp [Param.numel, Function.comp]
    rw [this, hm]
    simp [Param.numel, Function.comp]
  exact this _ _ h

theorem sumNumel_putGradGo (grad : List ℚ) (ps : List Param) (start : ℕ) :
    sumNumel (putGradGo grad ps start) = sumNumel ps := by
  unfold sumNumel
  rw [putGradGo_map_numel]

theorem length_putGradGo (grad : List ℚ) :
    ∀ (ps : List Param) (start : ℕ), (putGradGo grad ps start).length = ps.length := by
  intro ps
  induction ps with
  | nil => intro start; simp [putGradGo]
  | cons p rest ih => intro start; simp [putGradGo, ih]

theorem putGradGo_get? (grad : List ℚ) :
    ∀ (ps : List Param) (start j : ℕ) (p : Param), ps.get? j = some p →
      (putGradGo grad ps start).get? j
        = some { p with grad := some (slice grad (start + sumNumel (ps.take j)) p.numel) } := by
  intro ps
  induction ps with
  | nil => intro start j p hp; simp at hp
  | cons q rest ih =>
      intro start j p hp
      cases j with
      | zero =>
          simp only [List.get?] at hp
          cases hp
          simp [putGradGo, sumNumel]
      | succ j =>
          simp only [List.get?] at hp
          simp only [putGradGo, List.get?, List.take_succ_cons, sumNumel_cons,
            ← Nat.add_assoc]
          exact ih (start + q.numel) j p hp

/-! ### Slice and draw decomposition lemmas -/

theorem slice_range_map (f : ℕ → ℚ) (D s n : ℕ) (h : s + n ≤ D) :
    slice ((List.range D).map f) s n = (List.range n).map (fun j => f (s + j)) := by
  apply List.ext_getElem
  · rw [length_slice, List.length_map, List.length_range, List.length_map,
      List.length_range]
    omega
  · intro i h1 h2
    have hi : i < n := by simpa using h2
    have hsd : s + i < D := by omega
    simp [slice, List.getElem_drop, List.getElem_take]

theorem slice_zipWith_add (a b : List ℚ) (s n : ℕ) :
    slice (List.zipWith (· + ·) a b) s n
      = List.zipWith (· + ·) (slice a s n) (slice b s n) := by
  simp [slice, List.drop_zipWith, List.take_zipWith]

theorem slice_map (f : ℚ → ℚ) (v : List ℚ) (s n : ℕ) :
    slice (v.map f) s n = (slice v s n).map f := by
  simp [slice, List.map_drop, List.map_take]

theorem getD_map_mul (l : List ℚ) (c : ℚ) (t : ℕ) :
    (l.map (· * c)).getD t 0 = l.getD t 0 * c := by
  by_cases h : t < l.length
  · rw [List.getD_eq_getElem _ _ (by simpa using h), List.getD_eq_getElem _ _ h]
    simp
  · rw [List.getD_eq_default _ _ (by simpa using h), List.getD_eq_default _ _ (by omega)]
    ring

theorem map_range_getD (a : List ℚ) (D : ℕ) (h : a.length = D) :
    (List.range D).map (fun t => a.getD t 0) = a := by
  apply List.ext_getElem
  · simp [h]
  · intro i h1 h2
    simp [List.getD_eq_getElem a 0 h2, List.getElem?_eq_getElem h2]

/-! ### The accumulated flat gradient, elementwise -/

theorem length_injUpd (gen : ℤ → ℕ → ℚ) (vnorm : List ℚ → ℚ) (cfg : Config)
    (seed : ℤ) (numPert : ℕ) (ig : ℕ × ℚ) :
    (injUpd gen vnorm cfg seed numPert ig).length = cfg.totalDims := by
  unfold injUpd
  rw [List.length_map, length_generatePerturbationNorm]

theorem length_injFlatSpec (gen : ℤ → ℕ → ℚ) (vnorm : List ℚ → ℚ) (cfg : Config)
    (seed : ℤ) (dirGrads : List ℚ) :
    (injFlatSpec gen vnorm cfg seed dirGrads).length = cfg.totalDims := by
  unfold injFlatSpec
  rw [List.length_map, List.length_range]

theorem foldl_accOption (upd : ℕ × ℚ → List ℚ) :
    ∀ (pairs : List (ℕ × ℚ)) (a : List ℚ),
      pairs.foldl
        (fun acc ig =>
          match acc with
          | none => some (upd ig)
          | some g => some (List.zipWith (· + ·) g (upd ig)))
        (some a)
      = some (pairs.foldl (fun g ig => List.zipWith (· + ·) g (upd ig)) a) := by
  intro pairs
  induction pairs with
  | nil => intro a; rfl
  | cons pr rest ih => intro a; exact ih _

theorem getD_zipWith_add (a b : List ℚ) (hab : a.length = b.length) (t : ℕ) :
    (List.zipWith (· + ·) a b).getD t 0 = a.getD t 0 + b.getD t 0 := by
  by_cases h : t < a.length
  · rw [List.getD_eq_getElem _ _ (by rw [List.length_zipWith]; omega),
      List.getD_eq_getElem _ _ h, List.getD_eq_getElem _ _ (by omega)]
    simp
  · rw [List.getD_eq_default _ _ (by rw [List.length_zipWith]; omega),
      List.getD_eq_default _ _ (by omega), List.getD_eq_default _ _ (by omega)]
    ring

theorem foldl_zipWith_add (D : ℕ) (upd : ℕ × ℚ → List ℚ)
    (hupd : ∀ ig, (upd ig).length = D) :
    ∀ (pairs : List (ℕ × ℚ)) (a : List ℚ), a.length = D →
      pairs.foldl (fun g ig => List.zipWith (· + ·) g (upd ig)) a
        = (List.range D).map fun t =>
            a.getD t 0 + (pairs.map fun ig => (upd ig).getD t 0).sum := by
  intro pairs
  induction pairs with
  | nil =>
      intro a ha
      simp only [List.foldl_nil, List.map_nil, List.sum_nil, add_zero]
      exact (map_range_getD a D ha).symm
  | cons pr rest ih =>
      intro a ha
      have ha2 : (List.zipWith (· + ·) a (upd pr)).length = D := by
        rw [List.length_zipWith, hupd pr]
        omega
      rw [List.foldl_cons, ih _ ha2]
      have : (fun t => (List.zipWith (· + ·) a (upd pr)).getD t 0
            + (rest.map fun ig => (upd ig).getD t 0).sum)
          = fun t => a.getD t 0 + ((pr :: rest).map fun ig => (upd ig).getD t 0).sum := by
        funext t
        rw [getD_zipWith_add a (upd pr) (by rw [hupd pr]; omega) t]
        simp only [List.map_cons, List.sum_cons]
        ring
      rw [this]

theorem injectFlatAcc_eq_spec (gen : ℤ → ℕ → ℚ) (vnorm : List ℚ → ℚ)
    (cfg : Config) (seed : ℤ) (dirGrads : List ℚ) (h : dirGrads ≠ []) :
    injectFlatAcc gen vnorm cfg seed dirGrads
      = some (injFlatSpec gen vnorm cfg seed dirGrads) := by
  cases dirGrads with
  | nil => exact absurd rfl h
  | cons x rest =>
      unfold injectFlatAcc
      rw [List.enum_cons]
      rw [List.foldl_cons]
      show (rest.enumFrom 1).foldl _ (some (injUpd gen vnorm cfg seed
        (x :: rest).length (0, x))) = _
      rw [foldl_accOption (injUpd gen vnorm cfg seed (x :: rest).length)]
      rw [foldl_zipWith_add cfg.totalDims _
        (length_injUpd gen vnorm cfg seed (x :: rest).length)
        _ _ (length_injUpd gen vnorm cfg seed (x :: rest).length (0, x))]
      unfold injFlatSpec
      have hterm : ∀ (t : ℕ) (ig : ℕ × ℚ),
          (injUpd gen vnorm cfg seed (x :: rest).length ig).getD t 0
            = ((generatePerturbationNorm gen vnorm cfg (getRng seed ig.1)).1.getD t 0)
                * (ig.2 / ((x :: rest).length : ℚ)) := by
        intro t ig
        unfold injUpd
        exact getD_map_mul _ _ t
      have hfun : (fun t =>
            (injUpd gen vnorm cfg seed (x :: rest).length (0, x)).getD t 0 +
              (List.map (fun ig =>
                (injUpd gen vnorm cfg seed (x :: rest).length ig).getD t 0)
                (List.enumFrom 1 rest)).sum)
          = fun t =>
              (List.map (fun ig =>
                (generatePerturbationNorm gen vnorm cfg (getRng seed ig.1)).1.getD t 0
                  * (ig.2 / ((x :: rest).length : ℚ))) (x :: rest).enum).sum := by
        funext t
        rw [List.enum_cons, List.map_cons, List.sum_cons, hterm t (0, x)]
        have h2 : (fun ig : ℕ × ℚ =>
              (injUpd gen vnorm cfg seed (x :: rest).length ig).getD t 0)
            = fun ig : ℕ × ℚ =>
                (generatePerturbationNorm gen vnorm cfg (getRng seed ig.1)).1.getD t 0
                  * (ig.2 / ((x :: rest).length : ℚ)) := by
          funext ig
          exact hterm t ig
        rw [h2]
      rw [hfun]

/-! ### Paramwise injection as slices of a flat draw -/

theorem slice_flatDraw (gen : ℤ → ℕ → ℚ) (k : ℤ) (D s n : ℕ) (h : s + n ≤ D) :
    slice (flatDraw gen k D) s n = (randn gen n ⟨k, s⟩).1 := by
  show slice ((List.range D).map fun j => gen k (0 + j)) s n
      = (List.range n).map fun j => gen k (s + j)
  rw [slice_range_map (fun j => gen k (0 + j)) D s n h]
  simp

theorem putGradPGo_true (gen : ℤ → ℕ → ℚ) (c : ℚ) (k : ℤ) (D : ℕ) :
    ∀ (ps : List Param) (start : ℕ), start + sumNumel ps ≤ D →
      putGradParamwiseGo gen c true ps ⟨k, start⟩
        = putGradGo ((flatDraw gen k D).map (· * c)) ps start := by
  intro ps
  induction ps with
  | nil => intro start h; rfl
  | cons p rest ih =>
      intro start h
      obtain ⟨d, g0, r⟩ := p
      rw [sumNumel_cons] at h
      simp only [Param.numel] at h
      have hn : start + d.length ≤ D := by omega
      have hsl : slice ((flatDraw gen k D).map (· * c)) start d.length
          = (randn gen d.length ⟨k, start⟩).1.map (· * c) := by
        rw [slice_map, slice_flatDraw gen k D start d.length hn]
      simp only [putGradParamwiseGo, putGradGo, Param.numel, if_true, hsl,
        List.cons.injEq]
      refine ⟨trivial, ?_⟩
      have htl : (randn gen d.length (⟨k, start⟩ : Gen)).2 = ⟨k, start + d.length⟩ := rfl
      rw [htl]
      exact ih (start + d.length) (by omega)

theorem putGradPGo_false (gen : ℤ → ℕ → ℚ) (c : ℚ) (k : ℤ) (D : ℕ) (A : List ℚ) :
    ∀ (ps : List Param) (start : ℕ), start + sumNumel ps ≤ D →
      putGradParamwiseGo gen c false (putGradGo A ps start) ⟨k, start⟩
        = putGradGo (List.zipWith (· + ·) A ((flatDraw gen k D).map (· * c))) ps start := by
  intro ps
  induction ps with
  | nil => intro start h; rfl
  | cons p rest ih =>
      intro start h
      obtain ⟨d, g0, r⟩ := p
      rw [sumNumel_cons] at h
      simp only [Param.numel] at h
      have hn : start + d.length ≤ D := by omega
      have hsl : slice (List.zipWith (· + ·) A ((flatDraw gen k D).map (· * c)))
            start d.length
          = List.zipWith (· + ·) (slice A start d.length)
              ((randn gen d.length ⟨k, start⟩).1.map (· * c)) := by
        rw [slice_zipWith_add, slice_map, slice_flatDraw gen k D start d.length hn]
      simp only [putGradGo, putGradParamwiseGo, Param.numel, Option.getD_some, hsl,
        List.cons.injEq, Bool.false_eq_true, if_false]
      refine ⟨trivial, ?_⟩
      have htl : (randn gen d.length (⟨k, start⟩ : Gen)).2 = ⟨k, start + d.length⟩ := rfl
      rw [htl]
      exact ih (start + d.length) (by omega)

theorem pwFold (gen : ℤ → ℕ → ℚ) (seed : ℤ) (len D : ℕ) :
    ∀ (rest : List ℚ) (m : ℕ), 1 ≤ m → ∀ (A : List ℚ) (ps : List Param),
      sumNumel ps ≤ D →
      (List.enumFrom m rest).foldl
        (fun cur ig =>
          putGradParamwiseGo gen (ig.2 / (len : ℚ)) (ig.1 == 0) cur (getRng seed ig.1))
        (putGradGo A ps 0)
      = putGradGo
          ((List.enumFrom m rest).foldl
            (fun g ig => List.zipWith (· + ·) g
              ((flatDraw gen (getRng seed ig.1).key D).map (· * (ig.2 / (len : ℚ))))) A)
          ps 0 := by
  intro rest
  induction rest with
  | nil => intro m hm A ps hps; rfl
  | cons y rest ih =>
      intro m hm A ps hps
      have hm0 : (m == 0) = false := by
        cases m with
        | zero => omega
        | succ m => rfl
      simp only [List.enumFrom, List.foldl_cons, hm0]
      have hrng : getRng seed m = ⟨(getRng seed m).key, 0⟩ := rfl
      rw [hrng, putGradPGo_false gen (y / (len : ℚ)) (getRng seed m).key D A ps 0
        (by omega)]
      exact ih (m + 1) (by omega) _ ps hps

theorem genThenPutGradParamwise_eq (gen : ℤ → ℕ → ℚ) (seed : ℤ) (x : ℚ)
    (rest : List ℚ) (D : ℕ) (ps : List Param) (hps : sumNumel ps ≤ D) :
    generateThenPutGradParamwise gen seed (x :: rest) ps
      = putGradGo
          ((List.enumFrom 1 rest).foldl
            (fun g ig => List.zipWith (· + ·) g
              ((flatDraw gen (getRng seed ig.1).key D).map
                (· * (ig.2 / ((x :: rest).length : ℚ)))))
            ((flatDraw gen (getRng seed 0).key D).map
              (· * (x / ((x :: rest).length : ℚ)))))
          ps 0 := by
  unfold generateThenPutGradParamwise
  rw [List.enum_cons, List.foldl_cons]
  have hrng : getRng seed 0 = ⟨(getRng seed 0).key, 0⟩ := rfl
  show (List.enumFrom 1 rest).foldl _
      (putGradParamwiseGo gen (x / ((x :: rest).length : ℚ)) true ps (getRng seed 0)) = _
  rw [hrng, putGradPGo_true gen (x / ((x :: rest).length : ℚ)) (getRng seed 0).key D
    ps 0 (by omega)]
  exact pwFold gen seed (x :: rest).length D rest 1 (by omega) _ ps hps

theorem injectFlatAcc_cons (gen : ℤ → ℕ → ℚ) (vnorm : List ℚ → ℚ) (cfg : Config)
    (seed : ℤ) (x : ℚ) (rest : List ℚ) :
    injectFlatAcc gen vnorm cfg seed (x :: rest)
      = some ((List.enumFrom 1 rest).foldl
          (fun g ig => List.zipWith (· + ·) g
            (injUpd gen vnorm cfg seed (x :: rest).length ig))
          (injUpd gen vnorm cfg seed (x :: rest).length (0, x))) := by
  unfold injectFlatAcc
  rw [List.enum_cons, List.foldl_cons]
  exact foldl_accOption _ _ _

theorem injUpd_eq_flat (gen : ℤ → ℕ → ℚ) (vnorm : List ℚ → ℚ) (cfg : Config)
    (seed : ℤ) (len : ℕ) (ig : ℕ × ℚ)
    (hnorm : cfg.normalizePerturbation = false) :
    injUpd gen vnorm cfg seed len ig
      = (flatDraw gen (getRng seed ig.1).key cfg.totalDims).map
          (· * (ig.2 / (len : ℚ))) := by
  unfold injUpd generatePerturbationNorm flatDraw
  rw [hnorm]
  rfl

theorem length_putGrad (grad : List ℚ) (ps : List Param) :
    (putGrad grad ps).length = ps.length :=
  length_putGradGo grad ps 0

theorem putGrad_get? (grad : List ℚ) (ps : List Param) (j : ℕ) (p : Param)
    (hp : ps.get? j = some p) :
    (putGrad grad ps).get? j
      = some { p with grad := some (slice grad (sumNumel (ps.take j)) p.numel) } := by
  have := putGradGo_get? grad ps 0 j p hp
  simpa using this

theorem length_pbDir (gen : ℤ → ℕ → ℚ) (vnorm : List ℚ → ℚ) (cfg : Config)
    (seed : ℤ) (i : ℕ) :
    (pbDir gen vnorm cfg seed i).length = cfg.totalDims :=
  length_generatePerturbationNorm gen vnorm cfg (getRng seed i)

theorem zoIter_spec (gen : ℤ → ℕ → ℚ) (vnorm : List ℚ → ℚ) (cfg : Config)
    (loss : List Param → ℚ) (seed : ℤ) (ps : List Param)
    (hdim : cfg.totalDims = sumNumel ps)
    (st : ZoState) (i : ℕ) (hps : st.ps = ps)
    (hlm : cfg.gradEstimateMethod = .forward → st.lminus = loss ps) :
    (zoIter gen vnorm cfg loss seed st i).ps = ps
    ∧ (cfg.gradEstimateMethod = .forward →
        (zoIter gen vnorm cfg loss seed st i).lminus = loss ps)
    ∧ (zoIter gen vnorm cfg loss seed st i).dirGrads
        = st.dirGrads ++ [dirGradSpec gen vnorm cfg loss seed ps i]
    ∧ (zoIter gen vnorm cfg loss seed st i).evals
        = st.evals ++ evalStatesSpec gen vnorm cfg seed ps i := by
  have hle : sumNumel ps ≤ (pbDir gen vnorm cfg seed i).length := by
    rw [length_pbDir]
    omega
  have h2 : perturbModel (perturbModel ps (some (pbDir gen vnorm cfg seed i)) cfg.mu)
        (some (pbDir gen vnorm cfg seed i)) (-2 * cfg.mu)
      = perturbModel ps (some (pbDir gen vnorm cfg seed i)) (-cfg.mu) := by
    rw [perturbModel_comp ps _ _ _ hle]
    have harith : cfg.mu + -2 * cfg.mu = -cfg.mu := by ring
    rw [harith]
  have h3 : perturbModel (perturbModel ps (some (pbDir gen vnorm cfg seed i)) (-cfg.mu))
        (some (pbDir gen vnorm cfg seed i)) cfg.mu = ps := by
    rw [perturbModel_comp ps _ _ _ hle]
    have harith : -cfg.mu + cfg.mu = 0 := by ring
    rw [harith, perturbModel_zero ps _ hle]
  have h4 : perturbModel (perturbModel ps (some (pbDir gen vnorm cfg seed i)) cfg.mu)
        (some (pbDir gen vnorm cfg seed i)) (-cfg.mu) = ps := by
    rw [perturbModel_comp ps _ _ _ hle]
    have harith : cfg.mu + -cfg.mu = 0 := by ring
    rw [harith, perturbModel_zero ps _ hle]
  cases hm : cfg.gradEstimateMethod with
  | central =>
      simp only [zoIter, hm, hps, dirGradSpec, evalStatesSpec, plusState, minusState,
        h2, h3]
      refine ⟨trivial, ?_, by simp, by simp⟩
      intro hf
      exact Method.noConfusion hf
  | forward =>
      simp only [zoIter, hm, hps, dirGradSpec, evalStatesSpec, plusState, minusState,
        h4, hlm hm]
      refine ⟨trivial, fun _ => trivial, by simp, by simp⟩

theorem zoLoop_inv (gen : ℤ → ℕ → ℚ) (vnorm : List ℚ → ℚ) (cfg : Config)
    (loss : List Param → ℚ) (seed : ℤ) (ps : List Param)
    (hdim : cfg.totalDims = sumNumel ps) :
    ∀ (n : ℕ) (st0 : ZoState), st0.ps = ps →
      (cfg.gradEstimateMethod = .forward → st0.lminus = loss ps) →
      ((List.range n).foldl (zoIter gen vnorm cfg loss seed) st0).ps = ps
      ∧ (cfg.gradEstimateMethod = .forward →
          ((List.range n).foldl (zoIter gen vnorm cfg loss seed) st0).lminus = loss ps)
      ∧ ((List.range n).foldl (zoIter gen vnorm cfg loss seed) st0).dirGrads
          = st0.dirGrads ++ (List.range n).map (dirGradSpec gen vnorm cfg loss seed ps)
      ∧ ((List.range n).foldl (zoIter gen vnorm cfg loss seed) st0).evals
          = st0.evals ++ (List.range n).flatMap (evalStatesSpec gen vnorm cfg seed ps) := by
  intro n
  induction n with
  | zero =>
      intro st0 h0 hl
      exact ⟨h0, hl, by simp, by simp⟩
  | succ n ih =>
      intro st0 h0 hl
      obtain ⟨ihps, ihlm, ihdg, ihev⟩ := ih st0 h0 hl
      obtain ⟨sps, slm, sdg, sev⟩ := zoIter_spec gen vnorm cfg loss seed ps hdim
        ((List.range n).foldl (zoIter gen vnorm cfg loss seed) st0) n ihps ihlm
      rw [List.range_succ, List.foldl_append, List.foldl_cons, List.foldl_nil]
      refine ⟨sps, slm, ?_, ?_⟩
      · rw [sdg, ihdg, List.map_append, List.append_assoc]
        rfl
      · rw [sev, ihev, List.append_bind, List.append_assoc]
        simp

theorem zoIterP_spec (gen : ℤ → ℕ → ℚ) (cfg : Config)
    (loss : List Param → ℚ) (seed : ℤ) (ps : List Param)
    (st : ZoState) (i : ℕ) (hps : st.ps = ps)
    (hlm : cfg.gradEstimateMethod = .forward → st.lminus = loss ps) :
    (zoIterParamwise gen cfg loss seed st i).ps = ps
    ∧ (cfg.gradEstimateMethod = .forward →
        (zoIterParamwise gen cfg loss seed st i).lminus = loss ps)
    ∧ (zoIterParamwise gen cfg loss seed st i).dirGrads
        = st.dirGrads ++ [dirGradSpecP gen cfg loss seed ps i]
    ∧ (zoIterParamwise gen cfg loss seed st i).evals
        = st.evals ++ evalStatesSpecP gen cfg seed ps i := by
  have h2 : perturbModelParamwise gen
        (perturbModelParamwise gen ps (getRng seed i) cfg.mu) (getRng seed i)
        (-2 * cfg.mu)
      = perturbModelParamwise gen ps (getRng seed i) (-cfg.mu) := by
    rw [perturbModelParamwise_comp]
    have harith : cfg.mu + -2 * cfg.mu = -cfg.mu := by ring
    rw [harith]
  have h3 : perturbModelParamwise gen
        (perturbModelParamwise gen ps (getRng seed i) (-cfg.mu)) (getRng seed i)
        cfg.mu = ps := by
    rw [perturbModelParamwise_comp]
    have harith : -cfg.mu + cfg.mu = 0 := by ring
    rw [harith, perturbModelParamwise_zero]
  have h4 : perturbModelParamwise gen
        (perturbModelParamwise gen ps (getRng seed i) cfg.mu) (getRng seed i)
        (-cfg.mu) = ps := by
    rw [perturbModelParamwise_comp]
    have harith : cfg.mu + -cfg.mu = 0 := by ring
    rw [harith, perturbModelParamwise_zero]
  cases hm : cfg.gradEstimateMethod with
  | central =>
      simp only [zoIterParamwise, hm, hps, dirGradSpecP, evalStatesSpecP,
        plusStateP, minusStateP, h2, h3]
      refine ⟨trivial, ?_, by simp, by simp⟩
      intro hf
      exact Method.noConfusion hf
  | forward =>
      simp only [zoIterParamwise, hm, hps, dirGradSpecP, evalStatesSpecP,
        plusStateP, minusStateP, h4, hlm hm]
      refine ⟨trivial, fun _ => trivial, by simp, by simp⟩

theorem zoLoopP_inv (gen : ℤ → ℕ → ℚ) (cfg : Config)
    (loss : List Param → ℚ) (seed : ℤ) (ps : List Param) :
    ∀ (n : ℕ) (st0 : ZoState), st0.ps = ps →
      (cfg.gradEstimateMethod = .forward → st0.lminus = loss ps) →
      ((List.range n).foldl (zoIterParamwise gen cfg loss seed) st0).ps = ps
      ∧ (cfg.gradEstimateMethod = .forward →
          ((List.range n).foldl (zoIterParamwise gen cfg loss seed) st0).lminus
            = loss ps)
      ∧ ((List.range n).foldl (zoIterParamwise gen cfg loss seed) st0).dirGrads
          = st0.dirGrads ++ (List.range n).map (dirGradSpecP gen cfg loss seed ps)
      ∧ ((List.range n).foldl (zoIterParamwise gen cfg loss seed) st0).evals
          = st0.evals ++ (List.range n).flatMap (evalStatesSpecP gen cfg seed ps) := by
  intro n
  induction n with
  | zero =>
      intro st0 h0 hl
      exact ⟨h0, hl, by simp, by simp⟩
  | succ n ih =>
      intro st0 h0 hl
      obtain ⟨ihps, ihlm, ihdg, ihev⟩ := ih st0 h0 hl
      obtain ⟨sps, slm, sdg, sev⟩ := zoIterP_spec gen cfg loss seed ps
        ((List.range n).foldl (zoIterParamwise gen cfg loss seed) st0) n ihps ihlm
      rw [List.range_succ, List.foldl_append, List.foldl_cons, List.foldl_nil]
      refine ⟨sps, slm, ?_, ?_⟩
      · rw [sdg, ihdg, List.map_append, List.append_assoc]
        rfl
      · rw [sev, ihev, List.append_bind, List.append_assoc]
        simp

theorem zoInit_ps (loss : List Param → ℚ) (cfg : Config) (ps : List Param) :
    (zoInit loss cfg ps).ps = ps := by
  unfold zoInit
  split <;> rfl

theorem zoInit_lminus (loss : List Param → ℚ) (cfg : Config) (ps : List Param)
    (h : cfg.gradEstimateMethod = .forward) :
    (zoInit loss cfg ps).lminus = loss ps := by
  unfold zoInit
  rw [if_pos h]

theorem zoInit_dirGrads (loss : List Param → ℚ) (cfg : Config) (ps : List Param) :
    (zoInit loss cfg ps).dirGrads = [] := by
  unfold zoInit
  split <;> rfl

theorem zoInit_evals_forward (loss : List Param → ℚ) (cfg : Config) (ps : List Param)
    (h : cfg.gradEstimateMethod = .forward) :
    (zoInit loss cfg ps).evals = [ps] := by
  unfold zoInit
  rw [if_pos h]

theorem zoInit_grad (loss : List Param → ℚ) (cfg : Config) (ps : List Param) :
    (zoInit loss cfg ps).grad = none := by
  unfold zoInit
  split <;> rfl

theorem zoIter_grad_isSome (gen : ℤ → ℕ → ℚ) (vnorm : List ℚ → ℚ) (cfg : Config)
    (loss : List Param → ℚ) (seed : ℤ) (st : ZoState) (i : ℕ) :
    (zoIter gen vnorm cfg loss seed st i).grad.isSome = true := by
  cases hm : cfg.gradEstimateMethod <;> simp [zoIter, hm]

/-! ### Update / revert driver lemmas -/

theorem zipWith_ext (f g : ℚ → ℚ → ℚ) (H : ∀ x y, f x y = g x y) :
    ∀ (l s : List ℚ), List.zipWith f l s = List.zipWith g l s := by
  intro l
  induction l with
  | nil => intro s; simp
  | cons x xs ih =>
      intro s
      cases s with
      | nil => simp
      | cons y ys => simp [H, ih]

theorem length_flatDraw (gen : ℤ → ℕ → ℚ) (k : ℤ) (D : ℕ) :
    (flatDraw gen k D).length = D :=
  length_randn gen D ⟨k, 0⟩

theorem length_foldl_zipWith (upd : ℕ × ℚ → List ℚ) (D : ℕ)
    (hupd : ∀ ig, (upd ig).length = D) :
    ∀ (pairs : List (ℕ × ℚ)) (a : List ℚ), a.length = D →
      (pairs.foldl (fun g ig => List.zipWith (· + ·) g (upd ig)) a).length = D := by
  intro pairs
  induction pairs with
  | nil => intro a ha; simpa using ha
  | cons pr rest ih =>
      intro a ha
      rw [List.foldl_cons]
      exact ih _ (by rw [List.length_zipWith, ha, hupd pr]; omega)

theorem sgdStep_putGradGo_map_numel (G : List ℚ) (lr wd : ℚ) :
    ∀ (ps : List Param) (start : ℕ), start + sumNumel ps ≤ G.length →
      (sgdStep lr wd (putGradGo G ps start)).map Param.numel = ps.map Param.numel := by
  intro ps
  induction ps with
  | nil => intro start h; rfl
  | cons p rest ih =>
      intro start h
      obtain ⟨d, g0, r⟩ := p
      rw [sumNumel_cons] at h
      simp only [Param.numel] at h
      have hn : start + d.length ≤ G.length := by omega
      have hs : (slice G start d.length).length = d.length :=
        length_slice_of_le G start d.length hn
      simp only [putGradGo, sgdStep, Param.numel, List.map_cons, List.cons.injEq]
      constructor
      · show (List.zipWith _ d (slice G start d.length)).length = d.length
        rw [List.length_zipWith, hs]
        exact Nat.min_self _
      · exact ih (start + d.length) (by omega)

theorem sumNumel_sgdStep_putGradGo (G : List ℚ) (lr wd : ℚ) (ps : List Param)
    (start : ℕ) (h : start + sumNumel ps ≤ G.length) :
    sumNumel (sgdStep lr wd (putGradGo G ps start)) = sumNumel ps := by
  unfold sumNumel
  rw [sgdStep_putGradGo_map_numel G lr wd ps start h]

theorem revert_after_sgd (G : List ℚ) (lr wd : ℚ) (hwd : 0 ≤ wd)
    (hne : lr * wd ≠ 1) :
    ∀ (ps : List Param) (start : ℕ), start + sumNumel ps ≤ G.length →
      (putGradGo G (sgdStep lr wd (putGradGo G ps start)) start).mapM
          (revertParam lr wd)
        = Except.ok (putGradGo G ps start) := by
  have hz : 1 - lr * wd ≠ 0 := by
    intro hc
    exact hne (by linarith)
  intro ps
  induction ps with
  | nil => intro start h; rfl
  | cons p rest ih =>
      intro start h
      obtain ⟨d, g0, r⟩ := p
      rw [sumNumel_cons] at h
      simp only [Param.numel] at h
      have hn : start + d.length ≤ G.length := by omega
      have hs : (slice G start d.length).length = d.length :=
        length_slice_of_le G start d.length hn
      have hlen2 : (List.zipWith (fun x gx => x - lr * (gx + wd * x)) d
          (slice G start d.length)).length = d.length := by
        rw [List.length_zipWith, hs]
        exact Nat.min_self _
      have hdl : List.zipWith (fun x gx => x + lr * gx)
            (List.zipWith (fun x gx => x - lr * (gx + wd * x)) d
              (slice G start d.length)) (slice G start d.length)
          = List.zipWith (fun x y => x * (1 - lr * wd)) d (slice G start d.length) :=
        zipWith_same_comp _ _ _ (by intro x y; ring) d (slice G start d.length)
      have hrv : revertParam lr wd
            ⟨List.zipWith (fun x gx => x - lr * (gx + wd * x)) d
              (slice G start d.length), some (slice G start d.length), r⟩
          = .ok ⟨d, some (slice G start d.length), r⟩ := by
        unfold revertParam
        simp only [hdl]
        by_cases hw : wd > 0
        · rw [if_pos hw, List.map_zipWith]
          have hpt : List.zipWith
                (fun x y => x * (1 - lr * wd) * (1 / (1 - lr * wd))) d
                (slice G start d.length)
              = List.zipWith (fun x _ => x) d (slice G start d.length) :=
            zipWith_ext _ _ (by intro x y; field_simp) d (slice G start d.length)
          rw [hpt, zipWith_left_id _ (by intro x y; rfl) d _ (by rw [hs])]
        · rw [if_neg hw]
          have hw0 : wd = 0 := le_antisymm (not_lt.mp hw) hwd
          subst hw0
          have hpt : List.zipWith (fun x y => x * (1 - lr * 0)) d
                (slice G start d.length)
              = List.zipWith (fun x _ => x) d (slice G start d.length) :=
            zipWith_ext _ _ (by intro x y; ring) d (slice G start d.length)
          rw [hpt, zipWith_left_id _ (by intro x y; rfl) d _ (by rw [hs])]
      have hstep1 : putGradGo G (sgdStep lr wd
            (putGradGo G (⟨d, g0, r⟩ :: rest) start)) start
          = (⟨List.zipWith (fun x gx => x - lr * (gx + wd * x)) d
                (slice G start d.length),
              some (slice G start
                ((List.zipWith (fun x gx => x - lr * (gx + wd * x)) d
                  (slice G start d.length)).length)), r⟩ : Param)
            :: putGradGo G (sgdStep lr wd (putGradGo G rest (start + d.length)))
                (start + (List.zipWith (fun x gx => x - lr * (gx + wd * x)) d
                  (slice G start d.length)).length) := rfl
      rw [hstep1, hlen2, List.mapM_cons, hrv, ih (start + d.length) (by omega)]
      rfl

theorem injectGrad_wholevec (gen : ℤ → ℕ → ℚ) (vnorm : List ℚ → ℚ) (cfg : Config)
    (seed : ℤ) (dirGrads : List ℚ) (ps : List Param)
    (hpw : cfg.paramwisePerturb = false) (hdg : dirGrads ≠ []) :
    injectGrad gen vnorm cfg seed dirGrads ps
      = .ok (putGradGo (injFlatSpec gen vnorm cfg seed dirGrads) ps 0) := by
  unfold injectGrad generateThenPutGrad
  rw [hpw]
  simp only [Bool.false_eq_true, if_false]
  rw [injectFlatAcc_eq_spec gen vnorm cfg seed dirGrads hdg]
  rfl

theorem injectGrad_paramwise (gen : ℤ → ℕ → ℚ) (vnorm : List ℚ → ℚ) (cfg : Config)
    (seed : ℤ) (dirGrads : List ℚ) (ps : List Param)
    (hpw : cfg.paramwisePerturb = true) :
    injectGrad gen vnorm cfg seed dirGrads ps
      = .ok (generateThenPutGradParamwise gen seed dirGrads ps) := by
  unfold injectGrad
  rw [hpw]
  simp

theorem updateModel_single (gen : ℤ → ℕ → ℚ) (vnorm : List ℚ → ℚ) (cfg : Config)
    (opt : Optimizer) (seed : ℤ) (g : List ℚ) (ps q : List Param)
    (hso : cfg.sgdOnlyNoOptim = false)
    (hinj : injectGrad gen vnorm cfg seed g ps = .ok q) :
    updateModel gen vnorm cfg opt [seed] [g] ps = .ok (opt.step q) := by
  unfold updateModel
  rw [if_neg (by simp), if_neg (by simp [hso])]
  show (do
      let injected ← injectGrad gen vnorm cfg seed g ps
      pure (opt.step injected) : Except String (List Param)) = .ok (opt.step q)
  rw [hinj]
  rfl

theorem revertModel_single (gen : ℤ → ℕ → ℚ) (vnorm : List ℚ → ℚ) (cfg : Config)
    (opt : Optimizer) (seed : ℤ) (g : List ℚ) (us q : List Param)
    (hso : cfg.sgdOnlyNoOptim = false)
    (hsgd : opt.isSGD = true) (hmom : opt.momentum = 0)
    (hinj : injectGrad gen vnorm cfg seed g us = .ok q) :
    revertModel gen vnorm cfg opt [seed] [g] us
      = q.mapM (revertParam opt.lr opt.weightDecay) := by
  unfold revertModel
  rw [if_neg (by simp [hso]), if_neg (by simp), if_neg (by simp [hsgd, hmom])]
  show (do
      let injected ← injectGrad gen vnorm cfg seed g us
      injected.mapM (revertParam opt.lr opt.weightDecay)
        : Except String (List Param)) = q.mapM (revertParam opt.lr opt.weightDecay)
  rw [hinj]
  rfl

/-! ### Claim theorems -/

/-- C3: applying a perturbation scaled by `alpha` and then the same
regenerated perturbation scaled by `-alpha` (or the central-mode
sequence `+mu`, `-2*mu`, `+mu`) returns every parameter to its original
value in exact arithmetic, both in whole-vector mode (same flat vector,
sliced in `parameters_list` order) and in paramwise mode (same stream
key redrawn per parameter in `parameters_list` order). -/
theorem c3_restore_identity (gen : ℤ → ℕ → ℚ) (ps : List Param) (v : List ℚ)
    (a mu : ℚ) (rng : Gen) :
    (sumNumel ps ≤ v.length →
      perturbModel (perturbModel ps (some v) a) (some v) (-a) = ps)
    ∧ (sumNumel ps ≤ v.length →
        perturbModel (perturbModel (perturbModel ps (some v) mu) (some v)
          (-(2 * mu))) (some v) mu = ps)
    ∧ perturbModelParamwise gen (perturbModelParamwise gen ps rng a) rng (-a) = ps
    ∧ perturbModelParamwise gen (perturbModelParamwise gen
        (perturbModelParamwise gen ps rng mu) rng (-(2 * mu))) rng mu = ps := by
  refine ⟨?_, ?_, ?_, ?_⟩
  · intro h
    rw [perturbModel_comp ps v a (-a) h]
    have ha : a + -a = 0 := by ring
    rw [ha, perturbModel_zero ps v h]
  · intro h
    rw [perturbModel_comp ps v mu (-(2 * mu)) h]
    rw [perturbModel_comp ps v (mu + -(2 * mu)) mu h]
    have ha : mu + -(2 * mu) + mu = 0 := by ring
    rw [ha, perturbModel_zero ps v h]
  · rw [perturbModelParamwise_comp]
    have ha : a + -a = 0 := by ring
    rw [ha, perturbModelParamwise_zero]
  · rw [perturbModelParamwise_comp, perturbModelParamwise_comp]
    have ha : mu + (-(2 * mu) + mu) = 0 := by ring
    rw [ha, perturbModelParamwise_zero]

/-- C4: `get_rng(seed, i)` seeds its generator with exactly
`seed * (i + 17) + i`, and the perturbation drawn from it is a
deterministic function of the stream key alone: whenever two
`(seed, index)` pairs give equal keys, the generated perturbations are
identical (so two invocations with the same arguments agree). -/
theorem c4_rng_key_determinism (gen : ℤ → ℕ → ℚ) (vnorm : List ℚ → ℚ)
    (cfg : Config) (s1 s2 : ℤ) (i1 i2 : ℕ) :
    (getRng s1 i1).key = s1 * ((i1 : ℤ) + 17) + (i1 : ℤ)
    ∧ (s1 * ((i1 : ℤ) + 17) + (i1 : ℤ) = s2 * ((i2 : ℤ) + 17) + (i2 : ℤ) →
        generatePerturbationNorm gen vnorm cfg (getRng s1 i1)
          = generatePerturbationNorm gen vnorm cfg (getRng s2 i2)) := by
  refine ⟨rfl, ?_⟩
  intro h
  have hg : getRng s1 i1 = getRng s2 i2 := by
    unfold getRng
    rw [h]
  rw [hg]

/-- C5: in whole-vector mode, `generate_then_put_grad` produces exactly
`put_grad` of the flat vector whose entry `t` is
`Σ_i direction_i[t] * dir_grads[i] / num_pert` (with `num_pert` the
length of the given directional-gradient list), and `put_grad` writes
the consecutive parameter-sized slices of that vector into each
parameter's gradient slot in `parameters_list` order, overwriting any
previous gradient and leaving the data untouched. -/
theorem c5_inject_wholevec (gen : ℤ → ℕ → ℚ) (vnorm : List ℚ → ℚ) (cfg : Config)
    (seed : ℤ) (dirGrads : List ℚ) (ps : List Param) (hdg : dirGrads ≠ []) :
    generateThenPutGrad gen vnorm cfg seed dirGrads ps
      = some (putGrad (injFlatSpec gen vnorm cfg seed dirGrads) ps)
    ∧ ∀ (j : ℕ) (p : Param), ps.get? j = some p →
        (putGrad (injFlatSpec gen vnorm cfg seed dirGrads) ps).get? j
          = some { p with
              grad := some (slice (injFlatSpec gen vnorm cfg seed dirGrads)
                (sumNumel (ps.take j)) p.numel) } := by
  constructor
  · unfold generateThenPutGrad
    rw [injectFlatAcc_eq_spec gen vnorm cfg seed dirGrads hdg]
  · intro j p hp
    exact putGrad_get? _ ps j p hp

/-- C8: `revert_model_given_seed_and_grad` fails with an error — its
checks all precede the injection/update loop, so no parameter state is
produced — whenever the supplied optimizer is not `torch.optim.SGD` or
has nonzero momentum. -/
theorem c8_revert_requires_sgd (gen : ℤ → ℕ → ℚ) (vnorm : List ℚ → ℚ)
    (cfg : Config) (opt : Optimizer) (seeds : List ℤ)
    (gradScalars : List (List ℚ)) (ps : List Param)
    (h : ¬(opt.isSGD = true ∧ opt.momentum = 0)) :
    ∃ e, revertModel gen vnorm cfg opt seeds gradScalars ps
      = Except.error e := by
  unfold revertModel
  by_cases h1 : cfg.sgdOnlyNoOptim = true
  · rw [if_pos h1]
    exact ⟨_, rfl⟩
  · rw [if_neg h1]
    by_cases h2 : seeds.length ≠ gradScalars.length
    · rw [if_pos h2]
      exact ⟨_, rfl⟩
    · rw [if_neg h2, if_pos h]
      exact ⟨_, rfl⟩

/-- C2: for every perturbation index `i` in `[0, num_pert)`, both
`_zo_grad_estimate` and `_zo_grad_estimate_paramwise` compute the
directional gradient as `(L_plus - L_minus) / (mu * denom)`, where
`L_plus` is the loss at the parameters perturbed by `+mu * direction_i`,
`denom = 2` in central mode and `1` in forward mode, and in central
mode `L_minus` is the loss at the parameters perturbed by
`-mu * direction_i` (reached by applying `-2*mu` after the plus
evaluation; the restore with `+mu` then recovers the start state
exactly). -/
theorem c2_dir_grad_formula (gen : ℤ → ℕ → ℚ) (vnorm : List ℚ → ℚ)
    (cfg : Config) (loss : List Param → ℚ) (seed : ℤ) (ps : List Param)
    (hdim : cfg.totalDims = sumNumel ps) :
    (zoGradEstimate gen vnorm cfg loss seed ps).2.1
        = (List.range cfg.numPert).map (dirGradSpec gen vnorm cfg loss seed ps)
    ∧ (zoGradEstimateParamwise gen cfg loss seed ps).1
        = (List.range cfg.numPert).map (dirGradSpecP gen cfg loss seed ps) := by
  constructor
  · obtain ⟨-, -, hdg, -⟩ := zoLoop_inv gen vnorm cfg loss seed ps hdim cfg.numPert
      (zoInit loss cfg ps) (zoInit_ps loss cfg ps)
      (fun h => zoInit_lminus loss cfg ps h)
    show ((List.range cfg.numPert).foldl (zoIter gen vnorm cfg loss seed)
        (zoInit loss cfg ps)).dirGrads = _
    rw [hdg, zoInit_dirGrads, List.nil_append]
  · obtain ⟨-, -, hdg, -⟩ := zoLoopP_inv gen cfg loss seed ps cfg.numPert
      (zoInit loss cfg ps) (zoInit_ps loss cfg ps)
      (fun h => zoInit_lminus loss cfg ps h)
    show ((List.range cfg.numPert).foldl (zoIterParamwise gen cfg loss seed)
        (zoInit loss cfg ps)).dirGrads = _
    rw [hdg, zoInit_dirGrads, List.nil_append]

theorem flatMap_singleton_eq_map {α β : Type _} (l : List α) (f : α → β) :
    (l.flatMap fun x => [f x]) = l.map f := by
  induction l with
  | nil => rfl
  | cons x xs ih =>
      rw [List.flatMap_cons, ih]
      rfl

/-- C7: in forward mode (whole-vector and paramwise), the loss is
evaluated exactly once at the unperturbed parameters, before any
perturbation of the step — the evaluation trace is that baseline state
followed by the `num_pert` plus-perturbed states, with no per-direction
minus evaluation — and that single baseline value is the `L_minus` of
every direction's estimate. -/
theorem c7_forward_baseline (gen : ℤ → ℕ → ℚ) (vnorm : List ℚ → ℚ)
    (cfg : Config) (loss : List Param → ℚ) (seed : ℤ) (ps : List Param)
    (hm : cfg.gradEstimateMethod = .forward)
    (hdim : cfg.totalDims = sumNumel ps) :
    (zoGradEstimate gen vnorm cfg loss seed ps).2.2.2
        = ps :: (List.range cfg.numPert).map (plusState gen vnorm cfg seed ps)
    ∧ (zoGradEstimate gen vnorm cfg loss seed ps).2.1
        = (List.range cfg.numPert).map
            (fun i => (loss (plusState gen vnorm cfg seed ps i) - loss ps)
              / (cfg.mu * 1))
    ∧ (zoGradEstimateParamwise gen cfg loss seed ps).2.2
        = ps :: (List.range cfg.numPert).map (plusStateP gen cfg seed ps)
    ∧ (zoGradEstimateParamwise gen cfg loss seed ps).1
        = (List.range cfg.numPert).map
            (fun i => (loss (plusStateP gen cfg seed ps i) - loss ps)
              / (cfg.mu * 1)) := by
  have hev : evalStatesSpec gen vnorm cfg seed ps
      = fun i => [plusState gen vnorm cfg seed ps i] := by
    funext i
    unfold evalStatesSpec
    rw [hm]
  have hevP : evalStatesSpecP gen cfg seed ps
      = fun i => [plusStateP gen cfg seed ps i] := by
    funext i
    unfold evalStatesSpecP
    rw [hm]
  have hdgf : dirGradSpec gen vnorm cfg loss seed ps
      = fun i => (loss (plusState gen vnorm cfg seed ps i) - loss ps)
          / (cfg.mu * 1) := by
    funext i
    unfold dirGradSpec
    rw [hm]
  have hdgfP : dirGradSpecP gen cfg loss seed ps
      = fun i => (loss (plusStateP gen cfg seed ps i) - loss ps)
          / (cfg.mu * 1) := by
    funext i
    unfold dirGradSpecP
    rw [hm]
  obtain ⟨-, -, hdg, hevs⟩ := zoLoop_inv gen vnorm cfg loss seed ps hdim cfg.numPert
    (zoInit loss cfg ps) (zoInit_ps loss cfg ps)
    (fun h => zoInit_lminus loss cfg ps h)
  obtain ⟨-, -, hdgP, hevsP⟩ := zoLoopP_inv gen cfg loss seed ps cfg.numPert
    (zoInit loss cfg ps) (zoInit_ps loss cfg ps)
    (fun h => zoInit_lminus loss cfg ps h)
  refine ⟨?_, ?_, ?_, ?_⟩
  · show ((List.range cfg.numPert).foldl (zoIter gen vnorm cfg loss seed)
        (zoInit loss cfg ps)).evals = _
    rw [hevs, zoInit_evals_forward loss cfg ps hm, hev,
      flatMap_singleton_eq_map]
    rfl
  · show ((List.range cfg.numPert).foldl (zoIter gen vnorm cfg loss seed)
        (zoInit loss cfg ps)).dirGrads = _
    rw [hdg, zoInit_dirGrads, List.nil_append, hdgf]
  · show ((List.range cfg.numPert).foldl (zoIterParamwise gen cfg loss seed)
        (zoInit loss cfg ps)).evals = _
    rw [hevsP, zoInit_evals_forward loss cfg ps hm, hevP,
      flatMap_singleton_eq_map]
    rfl
  · show ((List.range cfg.numPert).foldl (zoIterParamwise gen cfg loss seed)
        (zoInit loss cfg ps)).dirGrads = _
    rw [hdgP, zoInit_dirGrads, List.nil_append, hdgfP]

/-- C6: with normalization disabled, paramwise injection
(`generate_then_put_grad_paramwise`) writes into every parameter's
gradient slot exactly the gradient whole-vector injection
(`generate_then_put_grad`) writes, for every seed and
directional-gradient list: the per-parameter draws taken sequentially
from one stream key equal the corresponding slices of the single flat
draw from the same key. -/
theorem c6_paramwise_wholevec_equiv (gen : ℤ → ℕ → ℚ) (vnorm : List ℚ → ℚ)
    (cfg : Config) (seed : ℤ) (dirGrads : List ℚ) (ps : List Param)
    (hnorm : cfg.normalizePerturbation = false)
    (hdim : cfg.totalDims = sumNumel ps)
    (hdg : dirGrads ≠ []) :
    generateThenPutGrad gen vnorm cfg seed dirGrads ps
      = some (generateThenPutGradParamwise gen seed dirGrads ps) := by
  obtain ⟨x, rest, rfl⟩ := List.exists_cons_of_ne_nil hdg
  unfold generateThenPutGrad
  rw [injectFlatAcc_cons]
  rw [genThenPutGradParamwise_eq gen seed x rest cfg.totalDims ps
    (le_of_eq hdim.symm)]
  have hbase : injUpd gen vnorm cfg seed (x :: rest).length (0, x)
      = (flatDraw gen (getRng seed 0).key cfg.totalDims).map
          (· * (x / ((x :: rest).length : ℚ))) :=
    injUpd_eq_flat gen vnorm cfg seed (x :: rest).length (0, x) hnorm
  have hfun : (fun (g : List ℚ) (ig : ℕ × ℚ) => List.zipWith (· + ·) g
        (injUpd gen vnorm cfg seed (x :: rest).length ig))
      = fun g ig => List.zipWith (· + ·) g
          ((flatDraw gen (getRng seed ig.1).key cfg.totalDims).map
            (· * (ig.2 / ((x :: rest).length : ℚ)))) := by
    funext g ig
    rw [injUpd_eq_flat gen vnorm cfg seed (x :: rest).length ig hnorm]
  rw [hbase, hfun]
  rfl

/-- C9: `RandomGradientEstimator.__init__` succeeds exactly when the
grad-estimate-method argument is the enum or one of the strings
"rge-central" / "rge-forward", `paramwise_perturb` is not combined
with `normalize_perturbation`, and `sgd_only_no_optim` is not requested
without `paramwise_perturb`; each invalid configuration raises
immediately. -/
theorem c9_init_validation (parameters : List Param) (mu : ℚ) (numPert : ℕ)
    (gm : MethodArg) (norm pw sgd : Bool) :
    (∃ res, initEstimator parameters mu numPert gm norm pw sgd = .ok res)
      ↔ ((∃ m, gm = MethodArg.enum m)
            ∨ gm = .str "rge-central" ∨ gm = .str "rge-forward")
          ∧ ¬(pw = true ∧ norm = true) ∧ (sgd = true → pw = true) := by
  cases gm with
  | enum m =>
      cases pw <;> cases norm <;> cases sgd <;>
        simp [initEstimator]
  | str st =>
      by_cases h1 : st = "rge-central"
      · subst h1
        cases pw <;> cases norm <;> cases sgd <;>
          simp [initEstimator]
      · by_cases h2 : st = "rge-forward"
        · subst h2
          cases pw <;> cases norm <;> cases sgd <;>
            simp [initEstimator]
        · cases pw <;> cases norm <;> cases sgd <;>
            simp [initEstimator, h1, h2]

theorem putGradGo_grad_isSome (G : List ℚ) :
    ∀ (ps : List Param) (start j : ℕ) (p : Param),
      (putGradGo G ps start).get? j = some p → p.grad.isSome = true := by
  intro ps
  induction ps with
  | nil =>
      intro start j p hp
      simp [putGradGo] at hp
  | cons q rest ih =>
      intro start j p hp
      cases j with
      | zero =>
          simp only [putGradGo, List.get?] at hp
          cases hp
          rfl
      | succ j =>
          simp only [putGradGo, List.get?] at hp
          exact ih (start + q.numel) j p hp

/-- C10: `compute_grad` in whole-vector mode with `is_put = False`
returns the directional gradients while leaving every parameter's
gradient slot (indeed the whole parameter state, in exact arithmetic)
unchanged; in paramwise mode the `is_put` argument is ignored and the
reconstructed gradient is always written into every parameter's
gradient slot. -/
theorem c10_compute_grad_frame (gen : ℤ → ℕ → ℚ) (vnorm : List ℚ → ℚ)
    (cfg : Config) (loss : List Param → ℚ) (seed : ℤ) (ps : List Param)
    (hdim : cfg.totalDims = sumNumel ps) (hnp : 1 ≤ cfg.numPert) :
    (cfg.paramwisePerturb = false →
      ∃ dgs qs, computeGrad gen vnorm cfg loss seed false ps = some (dgs, qs)
        ∧ qs.map Param.grad = ps.map Param.grad)
    ∧ (cfg.paramwisePerturb = true →
        computeGrad gen vnorm cfg loss seed true ps
            = computeGrad gen vnorm cfg loss seed false ps
        ∧ ∃ dgs qs, computeGrad gen vnorm cfg loss seed true ps = some (dgs, qs)
            ∧ qs = generateThenPutGradParamwise gen seed dgs ps
            ∧ ∀ (j : ℕ) (p : Param), qs.get? j = some p → p.grad.isSome = true) := by
  constructor
  · intro hpw
    obtain ⟨hps, -, -, -⟩ := zoLoop_inv gen vnorm cfg loss seed ps hdim cfg.numPert
      (zoInit loss cfg ps) (zoInit_ps loss cfg ps)
      (fun h => zoInit_lminus loss cfg ps h)
    have hgs : ((List.range cfg.numPert).foldl (zoIter gen vnorm cfg loss seed)
        (zoInit loss cfg ps)).grad.isSome = true := by
      obtain ⟨m, hm'⟩ : ∃ m, cfg.numPert = m + 1 := ⟨cfg.numPert - 1, by omega⟩
      rw [hm', List.range_succ, List.foldl_append, List.foldl_cons, List.foldl_nil]
      exact zoIter_grad_isSome gen vnorm cfg loss seed _ m
    obtain ⟨g0, hg0⟩ := Option.isSome_iff_exists.mp hgs
    have htup : zoGradEstimate gen vnorm cfg loss seed ps
        = (some (g0.map (· / (cfg.numPert : ℚ))),
           ((List.range cfg.numPert).foldl (zoIter gen vnorm cfg loss seed)
             (zoInit loss cfg ps)).dirGrads,
           ps,
           ((List.range cfg.numPert).foldl (zoIter gen vnorm cfg loss seed)
             (zoInit loss cfg ps)).evals) := by
      simp only [zoGradEstimate]
      rw [hg0, hps]
      rfl
    have hcond : (!cfg.paramwisePerturb) = true := by
      rw [hpw]
      rfl
    refine ⟨((List.range cfg.numPert).foldl (zoIter gen vnorm cfg loss seed)
      (zoInit loss cfg ps)).dirGrads, ps, ?_, rfl⟩
    simp only [computeGrad]
    rw [if_pos hcond, htup]
    rfl
  · intro hpw
    have hcond : ¬((!cfg.paramwisePerturb) = true) := by
      rw [hpw]
      simp
    obtain ⟨hpsP, -, hdgP, -⟩ := zoLoopP_inv gen cfg loss seed ps cfg.numPert
      (zoInit loss cfg ps) (zoInit_ps loss cfg ps)
      (fun h => zoInit_lminus loss cfg ps h)
    have hr2 : (zoGradEstimateParamwise gen cfg loss seed ps).2.1 = ps := hpsP
    have hr1 : (zoGradEstimateParamwise gen cfg loss seed ps).1
        = (List.range cfg.numPert).map (dirGradSpecP gen cfg loss seed ps) := by
      show ((List.range cfg.numPert).foldl (zoIterParamwise gen cfg loss seed)
        (zoInit loss cfg ps)).dirGrads = _
      rw [hdgP, zoInit_dirGrads, List.nil_append]
    constructor
    · simp only [computeGrad]
      rw [if_neg hcond, if_neg hcond]
    · have hcg : computeGrad gen vnorm cfg loss seed true ps
          = some ((zoGradEstimateParamwise gen cfg loss seed ps).1,
              generateThenPutGradParamwise gen seed
                (zoGradEstimateParamwise gen cfg loss seed ps).1 ps) := by
        simp only [computeGrad]
        rw [if_neg hcond, hr2]
      refine ⟨_, _, hcg, rfl, ?_⟩
      have hne : (zoGradEstimateParamwise gen cfg loss seed ps).1 ≠ [] := by
        rw [hr1]
        obtain ⟨m, hm'⟩ : ∃ m, cfg.numPert = m + 1 := ⟨cfg.numPert - 1, by omega⟩
        rw [hm', List.range_succ]
        simp
      obtain ⟨x, rest, hxr⟩ := List.exists_cons_of_ne_nil hne
      intro j p hp
      rw [hxr, genThenPutGradParamwise_eq gen seed x rest (sumNumel ps) ps
        (le_refl _)] at hp
      exact putGradGo_grad_isSome _ ps 0 j p hp

/-- C1: for a model updated by plain zero-momentum gradient descent
(`torch.optim.SGD` with learning rate `lr`, optional weight decay `wd`
with `0 ≤ wd` and `lr * wd ≠ 1`, one step for the recorded
`(seed, directional-gradients)` pair, the forward step taking each
parameter `p` to `p * (1 - lr * wd) - lr * g` with `g` the injected
gradient), `revert_model_given_seed_and_grad` re-injects the same
gradient from the seed, adds `lr * g` to each parameter and, when
`wd > 0`, multiplies by `1 / (1 - lr * wd)`, so that revert applied
after update reproduces the pre-update parameter data exactly, in both
whole-vector and paramwise injection modes. -/
theorem c1_update_revert_inverse (gen : ℤ → ℕ → ℚ) (vnorm : List ℚ → ℚ)
    (cfg : Config) (opt : Optimizer) (seed : ℤ) (g : List ℚ) (ps : List Param)
    (hso : cfg.sgdOnlyNoOptim = false)
    (hdim : cfg.totalDims = sumNumel ps)
    (hg : g ≠ [])
    (hsgd : opt.isSGD = true) (hmom : opt.momentum = 0)
    (hstep : opt.step = sgdStep opt.lr opt.weightDecay)
    (hwd : 0 ≤ opt.weightDecay) (hne : opt.lr * opt.weightDecay ≠ 1) :
    ∃ us qs, updateModel gen vnorm cfg opt [seed] [g] ps = .ok us
      ∧ revertModel gen vnorm cfg opt [seed] [g] us = .ok qs
      ∧ qs.map Param.data = ps.map Param.data := by
  cases hpw : cfg.paramwisePerturb with
  | false =>
      have hGlen : (injFlatSpec gen vnorm cfg seed g).length = sumNumel ps := by
        rw [length_injFlatSpec]
        omega
      have hinj1 := injectGrad_wholevec gen vnorm cfg seed g ps hpw hg
      have hup := updateModel_single gen vnorm cfg opt seed g ps _ hso hinj1
      have hinj2 := injectGrad_wholevec gen vnorm cfg seed g
        (opt.step (putGradGo (injFlatSpec gen vnorm cfg seed g) ps 0)) hpw hg
      have hrev := revertModel_single gen vnorm cfg opt seed g
        (opt.step (putGradGo (injFlatSpec gen vnorm cfg seed g) ps 0)) _
        hso hsgd hmom hinj2
      refine ⟨opt.step (putGradGo (injFlatSpec gen vnorm cfg seed g) ps 0),
        putGradGo (injFlatSpec gen vnorm cfg seed g) ps 0, hup, ?_, ?_⟩
      · rw [hrev, hstep]
        exact revert_after_sgd (injFlatSpec gen vnorm cfg seed g) opt.lr
          opt.weightDecay hwd hne ps 0 (by omega)
      · exact putGradGo_map_data _ ps 0
  | true =>
      obtain ⟨x, rest, rfl⟩ := List.exists_cons_of_ne_nil hg
      have he1 := genThenPutGradParamwise_eq gen seed x rest (sumNumel ps) ps
        (le_refl _)
      have hGlen : ((List.enumFrom 1 rest).foldl
            (fun g ig => List.zipWith (· + ·) g
              ((flatDraw gen (getRng seed ig.1).key (sumNumel ps)).map
                (· * (ig.2 / ((x :: rest).length : ℚ)))))
            ((flatDraw gen (getRng seed 0).key (sumNumel ps)).map
              (· * (x / ((x :: rest).length : ℚ))))).length = sumNumel ps := by
        apply length_foldl_zipWith
        · intro ig
          rw [List.length_map, length_flatDraw]
        · rw [List.length_map, length_flatDraw]
      set GPW := (List.enumFrom 1 rest).foldl
          (fun g ig => List.zipWith (· + ·) g
            ((flatDraw gen (getRng seed ig.1).key (sumNumel ps)).map
              (· * (ig.2 / ((x :: rest).length : ℚ)))))
          ((flatDraw gen (getRng seed 0).key (sumNumel ps)).map
            (· * (x / ((x :: rest).length : ℚ)))) with hGPW
      have hinj1 : injectGrad gen vnorm cfg seed (x :: rest) ps
          = .ok (putGradGo GPW ps 0) := by
        rw [injectGrad_paramwise gen vnorm cfg seed (x :: rest) ps hpw, he1]
      have hup := updateModel_single gen vnorm cfg opt seed (x :: rest) ps _
        hso hinj1
      have hsum2 : sumNumel (opt.step (putGradGo GPW ps 0)) = sumNumel ps := by
        rw [hstep]
        exact sumNumel_sgdStep_putGradGo GPW opt.lr opt.weightDecay ps 0 (by omega)
      have he2 := genThenPutGradParamwise_eq gen seed x rest (sumNumel ps)
        (opt.step (putGradGo GPW ps 0)) (le_of_eq hsum2)
      have hinj2 : injectGrad gen vnorm cfg seed (x :: rest)
            (opt.step (putGradGo GPW ps 0))
          = .ok (putGradGo GPW (opt.step (putGradGo GPW ps 0)) 0) := by
        rw [injectGrad_paramwise gen vnorm cfg seed (x :: rest) _ hpw, he2]
      have hrev := revertModel_single gen vnorm cfg opt seed (x :: rest)
        (opt.step (putGradGo GPW ps 0)) _ hso hsgd hmom hinj2
      refine ⟨opt.step (putGradGo GPW ps 0), putGradGo GPW ps 0, hup, ?_, ?_⟩
      · rw [hrev, hstep]
        exact revert_after_sgd GPW opt.lr opt.weightDecay hwd hne ps 0 (by omega)
      · exact putGradGo_map_data _ ps 0

/-! ### Concrete witnesses -/

theorem c1_witness :
    ∃ us qs,
      updateModel (fun k p => (k : ℚ) + p) (fun _ => 1)
          ⟨1, 1, 1, Method.central, false, false, false⟩
          ⟨true, 1/2, 0, 1/2, sgdStep (1/2) (1/2)⟩ [3] [[2]] [⟨[5], none, true⟩]
        = .ok us
      ∧ revertModel (fun k p => (k : ℚ) + p) (fun _ => 1)
          ⟨1, 1, 1, Method.central, false, false, false⟩
          ⟨true, 1/2, 0, 1/2, sgdStep (1/2) (1/2)⟩ [3] [[2]] us = .ok qs
      ∧ qs.map Param.data = ([⟨[5], none, true⟩] : List Param).map Param.data :=
  c1_update_revert_inverse (fun k p => (k : ℚ) + p) (fun _ => 1)
    ⟨1, 1, 1, Method.central, false, false, false⟩
    ⟨true, 1/2, 0, 1/2, sgdStep (1/2) (1/2)⟩ 3 [2] [⟨[5], none, true⟩]
    rfl rfl (by decide) rfl rfl rfl (by norm_num) (by norm_num)

theorem c2_witness :
    (zoGradEstimate (fun k p => (k : ℚ) + p) (fun _ => 1)
        ⟨1, 1, 1, Method.central, false, false, false⟩ (fun _ => 0) 0
        [⟨[0], none, true⟩]).2.1
      = (List.range 1).map (dirGradSpec (fun k p => (k : ℚ) + p) (fun _ => 1)
          ⟨1, 1, 1, Method.central, false, false, false⟩ (fun _ => 0) 0
          [⟨[0], none, true⟩])
    ∧ (zoGradEstimateParamwise (fun k p => (k : ℚ) + p)
        ⟨1, 1, 1, Method.central, false, false, false⟩ (fun _ => 0) 0
        [⟨[0], none, true⟩]).1
      = (List.range 1).map (dirGradSpecP (fun k p => (k : ℚ) + p)
          ⟨1, 1, 1, Method.central, false, false, false⟩ (fun _ => 0) 0
          [⟨[0], none, true⟩]) :=
  c2_dir_grad_formula _ _ _ _ _ _ rfl

theorem c3_witness :
    perturbModel (perturbModel [⟨[1, 2], none, true⟩] (some [1, 1]) 3)
        (some [1, 1]) (-3) = [⟨[1, 2], none, true⟩]
    ∧ perturbModel (perturbModel (perturbModel [⟨[1, 2], none, true⟩]
        (some [1, 1]) 2) (some [1, 1]) (-(2 * 2))) (some [1, 1]) 2
        = [⟨[1, 2], none, true⟩]
    ∧ perturbModelParamwise (fun k p => (k : ℚ) + p)
        (perturbModelParamwise (fun k p => (k : ℚ) + p) [⟨[1, 2], none, true⟩]
          ⟨5, 0⟩ 3) ⟨5, 0⟩ (-3) = [⟨[1, 2], none, true⟩]
    ∧ perturbModelParamwise (fun k p => (k : ℚ) + p)
        (perturbModelParamwise (fun k p => (k : ℚ) + p)
          (perturbModelParamwise (fun k p => (k : ℚ) + p) [⟨[1, 2], none, true⟩]
            ⟨5, 0⟩ 2) ⟨5, 0⟩ (-(2 * 2))) ⟨5, 0⟩ 2 = [⟨[1, 2], none, true⟩] := by
  have h := c3_restore_identity (fun k p => (k : ℚ) + p) [⟨[1, 2], none, true⟩]
    [1, 1] 3 2 ⟨5, 0⟩
  exact ⟨h.1 (by decide), h.2.1 (by decide), h.2.2.1, h.2.2.2⟩

theorem c4_witness :
    (getRng 1 0).key = 1 * ((0 : ℤ) + 17) + (0 : ℤ)
    ∧ generatePerturbationNorm (fun k p => (k : ℚ) + p) (fun _ => 1)
        ⟨2, 1, 1, Method.central, false, false, false⟩ (getRng 1 0)
      = generatePerturbationNorm (fun k p => (k : ℚ) + p) (fun _ => 1)
        ⟨2, 1, 1, Method.central, false, false, false⟩ (getRng 1 0) := by
  have h := c4_rng_key_determinism (fun k p => (k : ℚ) + p) (fun _ => 1)
    ⟨2, 1, 1, Method.central, false, false, false⟩ 1 1 0 0
  exact ⟨h.1, h.2 rfl⟩

theorem c5_witness :
    generateThenPutGrad (fun k p => (k : ℚ) + p) (fun _ => 1)
        ⟨1, 1, 1, Method.central, false, false, false⟩ 0 [1] [⟨[0], none, true⟩]
      = some (putGrad (injFlatSpec (fun k p => (k : ℚ) + p) (fun _ => 1)
          ⟨1, 1, 1, Method.central, false, false, false⟩ 0 [1]) [⟨[0], none, true⟩])
    ∧ (putGrad (injFlatSpec (fun k p => (k : ℚ) + p) (fun _ => 1)
          ⟨1, 1, 1, Method.central, false, false, false⟩ 0 [1])
        [⟨[0], none, true⟩]).get? 0
      = some { (⟨[0], none, true⟩ : Param) with
          grad := some (slice (injFlatSpec (fun k p => (k : ℚ) + p) (fun _ => 1)
            ⟨1, 1, 1, Method.central, false, false, false⟩ 0 [1])
            (sumNumel (([⟨[0], none, true⟩] : List Param).take 0))
            (⟨[0], none, true⟩ : Param).numel) } := by
  have h := c5_inject_wholevec (fun k p => (k : ℚ) + p) (fun _ => 1)
    ⟨1, 1, 1, Method.central, false, false, false⟩ 0 [1] [⟨[0], none, true⟩]
    (by decide)
  exact ⟨h.1, h.2 0 ⟨[0], none, true⟩ rfl⟩

theorem c6_witness :
    generateThenPutGrad (fun k p => (k : ℚ) + p) (fun _ => 1)
        ⟨2, 1, 2, Method.central, false, true, false⟩ 0 [1, 2]
        [⟨[1], none, true⟩, ⟨[2], none, true⟩]
      = some (generateThenPutGradParamwise (fun k p => (k : ℚ) + p) 0 [1, 2]
          [⟨[1], none, true⟩, ⟨[2], none, true⟩]) :=
  c6_paramwise_wholevec_equiv _ _ _ _ _ _ rfl rfl (by decide)

theorem c7_witness :
    (zoGradEstimate (fun k p => (k : ℚ) + p) (fun _ => 1)
        ⟨1, 1, 1, Method.forward, false, false, false⟩ (fun _ => 0) 0
        [⟨[0], none, true⟩]).2.2.2
      = [⟨[0], none, true⟩] :: (List.range 1).map (plusState
          (fun k p => (k : ℚ) + p) (fun _ => 1)
          ⟨1, 1, 1, Method.forward, false, false, false⟩ 0 [⟨[0], none, true⟩])
    ∧ (zoGradEstimateParamwise (fun k p => (k : ℚ) + p)
        ⟨1, 1, 1, Method.forward, false, false, false⟩ (fun _ => 0) 0
        [⟨[0], none, true⟩]).2.2
      = [⟨[0], none, true⟩] :: (List.range 1).map (plusStateP
          (fun k p => (k : ℚ) + p)
          ⟨1, 1, 1, Method.forward, false, false, false⟩ 0 [⟨[0], none, true⟩]) := by
  have h := c7_forward_baseline (fun k p => (k : ℚ) + p) (fun _ => 1)
    ⟨1, 1, 1, Method.forward, false, false, false⟩ (fun _ => 0) 0
    [⟨[0], none, true⟩] rfl rfl
  exact ⟨h.1, h.2.2.1⟩

theorem c8_witness :
    ∃ e, revertModel (fun k p => (k : ℚ) + p) (fun _ => 1)
        ⟨1, 1, 1, Method.central, false, false, false⟩
        ⟨false, 1, 0, 0, fun ps => ps⟩ [0] [[1]] [⟨[0], none, true⟩]
      = Except.error e :=
  c8_revert_requires_sgd _ _ _ _ _ _ _ (by decide)

theorem c10_witness :
    ∃ dgs qs, computeGrad (fun k p => (k : ℚ) + p) (fun _ => 1)
        ⟨1, 1, 1, Method.central, false, false, false⟩ (fun _ => 0) 0 false
        [⟨[0], none, true⟩] = some (dgs, qs)
      ∧ qs.map Param.grad = ([⟨[0], none, true⟩] : List Param).map Param.grad :=
  (c10_compute_grad_frame _ _ _ _ _ _ rfl (by decide)).1 rfl

end ZeroGLA
